import Mathlib

/-!
# Boundary-tag chunk heap: `simulator/chunk.h`

A shallow embedding of the chunk/heap core of the allocator simulator.

Modelling conventions.

* Addresses (`struct chunk *`, `void *`) are natural numbers.  Pointer
  arithmetic is plain arithmetic on them; address subtraction that would leave
  the address space (undefined behaviour in C) is truncated at `0`.
* The arena is a map from addresses to header values (`Heap.mem`).  A header
  is read and written field by field, as the source does.  Headers at
  different addresses are distinct objects: two headers whose bytes would
  partly overlap are not modelled (the chunks of a well-formed heap never do).
* The bit-fields `prev_size` and `curr_size` are 31 bits wide: every store to
  them reduces the stored value modulo `2 ^ 31`.  The one-bit state fields are
  booleans (`FREE_CHUNK = 0 = false`, `USED_CHUNK = 1 = true`).
* `size_t` is 64 bits wide (`size_t_mod = 2 ^ 64`); subtraction on `size_t`
  and the conversion of a pointer difference to `size_t` wrap modulo it.
* `head_size () = sizeof (struct chunk)` and `sizeof (struct info)` depend on
  the build (`CHUNK_EXTRA_T`, `META_EXTRA_T`); they are the parameters `H`
  and `D` of the operations.
* A failed `assert` aborts the program.  Operations return `Res.abort` with the
  heap as it was when the assertion failed, or `Res.ok` with the result and the
  heap after the call.
* C leaves open in which order the operands of an assignment are evaluated.
  The outcome depends on it in one place only, an abort inside `use_chunk`,
  for which both orders are given (`use_chunk`, `use_chunk_call_first`).
* The descriptor `*info` is kept next to the header memory in `Heap.info`;
  the operations after `init_heap` only read it.
* The doubles of `struct stats` are modelled by exact rationals.
-/

namespace Malloc

/-! ## Data model -/

/-- The state bit `FREE_CHUNK` (`#define FREE_CHUNK 0`). -/
abbrev FREE_CHUNK : Bool := false

/-- The state bit `USED_CHUNK` (`#define USED_CHUNK 1`). -/
abbrev USED_CHUNK : Bool := true

/-- The header `struct chunk`: two (31-bit size, 1-bit state) pairs. -/
structure chunk where
  prev_size : Nat
  prev_state : Bool
  curr_size : Nat
  curr_state : Bool
deriving DecidableEq

/-- The descriptor `struct info`. -/
structure info where
  heap : Nat
  heap_size : Nat
  arena : Nat
  arena_size : Nat
  begin : Nat
  end_ : Nat
deriving DecidableEq

/-- The result `struct stats`, with exact rationals in place of doubles. -/
structure stats where
  rel_ext_frag : ℚ
  rel_metadata : ℚ
deriving DecidableEq

/-- The program state: the global descriptor and the header memory. -/
structure Heap where
  info : Malloc.info
  mem : Nat → chunk

/-- Outcome of a call: normal return with a value, or abort on a failed
assertion; both carry the heap at that moment. -/
inductive Res (α : Type) where
  | ok (a : α) (h : Heap) : Res α
  | abort (h : Heap) : Res α

/-- Modulus of a 31-bit size bit-field. -/
abbrev field_mod : Nat := 2147483648

/-- Modulus of `size_t`. -/
abbrev size_t_mod : Nat := 18446744073709551616

/-- The value of `a - b` as a `size_t`: used for `size_t` subtraction and for
a pointer difference converted to `size_t`. -/
def sub_size_t (a b : Nat) : Nat := (((a : Int) - (b : Int)) % (size_t_mod : Int)).toNat

/-- The value of `a + b` as a `size_t`. -/
def add_size_t (a b : Nat) : Nat := (a + b) % size_t_mod

/-- Replace the header stored at address `c`. -/
def store (h : Heap) (c : Nat) (v : chunk) : Heap :=
  { h with mem := fun x => if x = c then v else h.mem x }

/-- The store `c->prev_size = v` into a 31-bit field. -/
def set_prev_size (h : Heap) (c v : Nat) : Heap :=
  store h c { h.mem c with prev_size := v % field_mod }

/-- The store `c->curr_size = v` into a 31-bit field. -/
def set_curr_size (h : Heap) (c v : Nat) : Heap :=
  store h c { h.mem c with curr_size := v % field_mod }

/-- The store `c->prev_state = s`. -/
def set_prev_state (h : Heap) (c : Nat) (s : Bool) : Heap :=
  store h c { h.mem c with prev_state := s }

/-- The store `c->curr_state = s`. -/
def set_curr_state (h : Heap) (c : Nat) (s : Bool) : Heap :=
  store h c { h.mem c with curr_state := s }

/-! ## Chunk types -/

def is_free_chunk (c : Nat) (h : Heap) : Bool := (h.mem c).curr_state == FREE_CHUNK

def is_used_chunk (c : Nat) (h : Heap) : Bool := (h.mem c).curr_state == USED_CHUNK

def is_free_prev_chunk (c : Nat) (h : Heap) : Bool := (h.mem c).prev_state == FREE_CHUNK

def is_used_prev_chunk (c : Nat) (h : Heap) : Bool := (h.mem c).prev_state == USED_CHUNK

/-! ## Chunk sizes -/

/-- The reserved magnitude `(1L << 31) - 1`. -/
def size_marker : Nat := 2 ^ 31 - 1

/-! ## Chunk data -/

/-- The start of the data of the chunk at `c`: `(char*)chunk + head_size()`. -/
def chunk_data (H c : Nat) : Nat := c + H

/-- The source's `prev_chunk_data`: `(char*)chunk - chunk->prev_size`. -/
def prev_chunk_data (c : Nat) (h : Heap) : Nat := c - (h.mem c).prev_size

/-- The source's `data_chunk`: `(char*)data - head_size()`. -/
def data_chunk (H d : Nat) : Nat := d - H

/-! ## Chunk navigation -/

def is_begin_chunk (c : Nat) (h : Heap) : Bool := (h.mem c).prev_size == size_marker

def is_end_chunk (c : Nat) (h : Heap) : Bool := (h.mem c).curr_size == size_marker

/-- The source's `next_chunk`: asserts `!is_end_chunk(chunk)`. -/
def next_chunk (H c : Nat) (h : Heap) : Res Nat :=
  if is_end_chunk c h then Res.abort h
  else Res.ok (chunk_data H c + (h.mem c).curr_size) h

/-- The source's `prev_chunk`: asserts `!is_begin_chunk(chunk)`. -/
def prev_chunk (H c : Nat) (h : Heap) : Res Nat :=
  if is_begin_chunk c h then Res.abort h
  else Res.ok (data_chunk H (prev_chunk_data c h)) h

def begin_chunk (h : Heap) : Nat := h.info.begin

def first_chunk (h : Heap) : Nat := begin_chunk h

def end_chunk (h : Heap) : Nat := h.info.end_

def last_chunk (H : Nat) (h : Heap) : Res Nat := prev_chunk H (end_chunk h) h

def is_first_chunk (c : Nat) (h : Heap) : Bool := is_begin_chunk c h

/-- The source's `is_last_chunk`: asserts `!is_end_chunk(chunk)`. -/
def is_last_chunk (H c : Nat) (h : Heap) : Res Bool :=
  if is_end_chunk c h then Res.abort h
  else
    match next_chunk H c h with
    | Res.abort h1 => Res.abort h1
    | Res.ok n h1 => Res.ok (is_end_chunk n h1) h1

/-! ## Chunk operations -/

/-- The source's `split_chunk`.  `chunk2` and `chunk3` are computed before any
store; each chained assignment stores into its right-hand field first and
passes on the value that field then holds. -/
def split_chunk (H c size : Nat) (h : Heap) : Res Nat :=
  if is_free_chunk c h then
    let chunk2 := chunk_data H c + size
    match next_chunk H c h with
    | Res.abort h1 => Res.abort h1
    | Res.ok chunk3 h1 =>
      let h2 := set_prev_size h1 chunk2 size
      let h3 := set_curr_size h2 c (h2.mem chunk2).prev_size
      let h4 := set_prev_size h3 chunk3 (sub_size_t chunk3 (chunk_data H chunk2))
      let h5 := set_curr_size h4 chunk2 (h4.mem chunk3).prev_size
      let h6 := set_prev_state h5 chunk2 FREE_CHUNK
      let h7 := set_curr_state h6 chunk2 (h6.mem chunk2).prev_state
      Res.ok chunk2 h7
  else Res.abort h

/-- The source's `coalesce_chunk`. -/
def coalesce_chunk (H c : Nat) (h : Heap) : Res Nat :=
  if is_free_chunk c h then
    if is_free_prev_chunk c h then
      match prev_chunk H c h with
      | Res.abort h1 => Res.abort h1
      | Res.ok chunk1 h1 =>
        match next_chunk H c h1 with
        | Res.abort h2 => Res.abort h2
        | Res.ok chunk3 h2 =>
          let size := sub_size_t chunk3 (chunk_data H chunk1)
          let h3 := set_prev_size h2 chunk3 size
          let h4 := set_curr_size h3 chunk1 (h3.mem chunk3).prev_size
          Res.ok chunk1 h4
    else Res.abort h
  else Res.abort h

/-- The source's `free_chunk`.  Both assertions come before the statement
`next_chunk(chunk)->prev_state = chunk->curr_state = FREE_CHUNK`, so the
assertion inside `next_chunk` cannot fail there and the order in which the
call and the two stores are evaluated does not change the outcome. -/
def free_chunk (H c : Nat) (h : Heap) : Res Unit :=
  if is_used_chunk c h then
    if is_end_chunk c h then Res.abort h
    else
      match next_chunk H c h with
      | Res.abort h1 => Res.abort h1
      | Res.ok n h1 =>
        let h2 := set_curr_state h1 c FREE_CHUNK
        let h3 := set_prev_state h2 n (h2.mem c).curr_state
        Res.ok () h3
  else Res.abort h

/-- The source's `use_chunk`; the only explicit assertion is
`is_free_chunk(chunk)`.  In
`next_chunk(chunk)->prev_state = chunk->curr_state = USED_CHUNK` C leaves open
whether the right operand (the store to `chunk->curr_state`) or the call in the
left operand is evaluated first.  This definition takes the right operand
first, as the compiled code does: the assertion of `next_chunk` then fails, if
it does, after `chunk->curr_state` has been stored.  The other order is
`use_chunk_call_first`. -/
def use_chunk (H c : Nat) (h : Heap) : Res Unit :=
  if is_free_chunk c h then
    let h1 := set_curr_state h c USED_CHUNK
    match next_chunk H c h1 with
    | Res.abort h2 => Res.abort h2
    | Res.ok n h2 => Res.ok () (set_prev_state h2 n (h2.mem c).curr_state)
  else Res.abort h

/-- The source's `use_chunk` with the other evaluation order of its
assignment: the call `next_chunk(chunk)` of the left operand first, then the
two stores right to left. -/
def use_chunk_call_first (H c : Nat) (h : Heap) : Res Unit :=
  if is_free_chunk c h then
    match next_chunk H c h with
    | Res.abort h1 => Res.abort h1
    | Res.ok n h1 =>
      let h2 := set_curr_state h1 c USED_CHUNK
      let h3 := set_prev_state h2 n (h2.mem c).curr_state
      Res.ok () h3
  else Res.abort h

/-! ## Heap operations -/

/-- The source's `init_heap (size, heap)`, run on the state `h0` whose memory
is the caller's raw range.  `D = sizeof (struct info)`, so `info + 1` is
`heap + D`. -/
def init_heap (H D size heap : Nat) (h0 : Heap) : Res Unit :=
  let arena := heap + D
  let arena_size := sub_size_t (heap + size) arena
  let i1 : Malloc.info :=
    { h0.info with heap := heap, heap_size := size, arena := arena,
                   arena_size := arena_size, begin := arena }
  let h1 : Heap := { h0 with info := i1 }
  let h2 := set_prev_state h1 i1.begin USED_CHUNK
  let h3 := set_curr_state h2 i1.begin FREE_CHUNK
  let h4 := set_prev_size h3 i1.begin size_marker
  let h5 := set_curr_size h4 i1.begin (sub_size_t i1.arena_size (2 * H))
  match next_chunk H i1.begin h5 with
  | Res.abort h6 => Res.abort h6
  | Res.ok e h6 =>
    let h7 : Heap := { h6 with info := { h6.info with end_ := e } }
    let h8 := set_prev_state h7 e FREE_CHUNK
    let h9 := set_curr_state h8 e USED_CHUNK
    let h10 := set_prev_size h9 e (h9.mem h9.info.begin).curr_size
    let h11 := set_curr_size h10 e size_marker
    Res.ok () h11

/-- The loop of `alloc_stats`, `fuel` bounding the number of tests of the loop
condition: `none` when the fuel runs out, otherwise the final
`(meta_size, free_size, largest)` or the abort of `next_chunk`. -/
def stats_loop (H : Nat) (h : Heap) : Nat → Nat → Nat → Nat → Nat → Option (Res (Nat × Nat × Nat))
  | 0, _, _, _, _ => none
  | fuel + 1, c, meta_size, free_size, largest =>
    if is_end_chunk c h then some (Res.ok (meta_size, free_size, largest) h)
    else
      let meta_size1 := sub_size_t meta_size (h.mem c).curr_size
      let free_size1 := if is_free_chunk c h then add_size_t free_size (h.mem c).curr_size
                        else free_size
      let largest1 := if is_free_chunk c h then
                        (if (h.mem c).curr_size > largest then (h.mem c).curr_size else largest)
                      else largest
      match next_chunk H c h with
      | Res.abort h1 => some (Res.abort h1)
      | Res.ok n _ => stats_loop H h fuel n meta_size1 free_size1 largest1

/-- The two ratios computed after the loop of `alloc_stats`. -/
def stats_of (heap_size meta_size free_size largest : Nat) : stats :=
  { rel_ext_frag := if free_size ≠ 0 then (largest : ℚ) / (free_size : ℚ) else 1
    rel_metadata := (meta_size : ℚ) / (heap_size : ℚ) }

/-- The source's `alloc_stats`, with `fuel` bounding the loop. -/
def alloc_stats (H fuel : Nat) (h : Heap) : Option (Res stats) :=
  match stats_loop H h fuel (begin_chunk h) h.info.heap_size 0 0 with
  | none => none
  | some (Res.abort h1) => some (Res.abort h1)
  | some (Res.ok (meta_size, free_size, largest) h1) =>
    some (Res.ok (stats_of h1.info.heap_size meta_size free_size largest) h1)

/-! ## Walks and well-formed heaps -/

/-- The chunk walk: starting at `a` and stepping with `next_chunk`, the
headers visited before the first end-marked header are exactly `l`, and that
end-marked header is `e`. -/
def isWalk (H : Nat) (h : Heap) : Nat → List Nat → Nat → Prop
  | a, [], e => a = e ∧ is_end_chunk e h = true
  | a, c :: l, e =>
    a = c ∧ is_end_chunk c h = false ∧ isWalk H h (chunk_data H c + (h.mem c).curr_size) l e

instance isWalk_decidable (H : Nat) (h : Heap) : ∀ (a : Nat) (l : List Nat) (e : Nat),
    Decidable (isWalk H h a l e)
  | a, [], e => by unfold isWalk; exact inferInstance
  | a, c :: l, e => by
    unfold isWalk
    have := isWalk_decidable H h (chunk_data H c + (h.mem c).curr_size) l e
    exact inferInstance

/-- The adjacency invariant at the chunk `A`: its successor `B = next_chunk (A)`
exists and records `A`'s size and state in its `prev_` fields. -/
def adjacent_at (H : Nat) (h : Heap) (A : Nat) : Prop :=
  ∃ B, next_chunk H A h = Res.ok B h ∧
    (h.mem B).prev_size = (h.mem A).curr_size ∧ (h.mem B).prev_state = (h.mem A).curr_state

/-- A well-formed heap with chunk sequence `l` (the chunks before the end
sentinel, in address order). -/
structure WellFormed (H : Nat) (h : Heap) (l : List Nat) : Prop where
  /-- a header occupies at least one byte -/
  head_pos : 0 < H
  /-- the walk from `begin_chunk ()` visits `l` and stops at `end_chunk ()` -/
  walk : isWalk H h (begin_chunk h) l (end_chunk h)
  /-- the adjacency invariant holds along the walk -/
  adj : ∀ A ∈ l, adjacent_at H h A
  /-- the begin chunk carries the marker in `prev_size` -/
  begin_marker : (h.mem (begin_chunk h)).prev_size = size_marker
  /-- the begin chunk has no free predecessor -/
  begin_prev_used : (h.mem (begin_chunk h)).prev_state = USED_CHUNK
  /-- the end sentinel is marked used -/
  end_used : (h.mem (end_chunk h)).curr_state = USED_CHUNK
  /-- the payload between the two sentinels fits a 31-bit size field below the
  marker, as `init_heap` leaves it -/
  extent : end_chunk h < begin_chunk h + H + size_marker

/-- Chain form of walk plus adjacency, without the end test: `l` is a run of
consecutive chunks from `a` up to `e`. -/
def isChain (H : Nat) (h : Heap) : Nat → List Nat → Nat → Prop
  | a, [], e => a = e
  | a, c :: l, e =>
    a = c ∧ (h.mem c).curr_size ≠ size_marker ∧
    (h.mem (c + H + (h.mem c).curr_size)).prev_size = (h.mem c).curr_size ∧
    (h.mem (c + H + (h.mem c).curr_size)).prev_state = (h.mem c).curr_state ∧
    isChain H h (c + H + (h.mem c).curr_size) l e

/-- The address `c` is a chunk of the heap: a chunk of the walk from
`begin_chunk ()`, or the end sentinel that stops it. -/
def is_chunk (H : Nat) (h : Heap) (c : Nat) : Prop :=
  ∃ l, isWalk H h (begin_chunk h) l (end_chunk h) ∧ (c ∈ l ∨ c = end_chunk h)

/-- Heaps obtained from `init_heap` on a range that holds the descriptor and
two headers and whose initial free size is below the marker, followed by calls
of the four mutators on chunks of the heap that return normally, every split
leaving room for the header of the remainder. -/
inductive Reachable (H D : Nat) : Heap → Prop
  | init (size heap : Nat) (h0 h : Heap) :
      0 < H → D + 2 * H ≤ size → size - D - 2 * H < size_marker → size < size_t_mod →
      init_heap H D size heap h0 = Res.ok () h → Reachable H D h
  | split (h h1 : Heap) (c size r : Nat) :
      Reachable H D h → is_chunk H h c → size + H ≤ (h.mem c).curr_size →
      split_chunk H c size h = Res.ok r h1 → Reachable H D h1
  | coalesce (h h1 : Heap) (c r : Nat) :
      Reachable H D h → is_chunk H h c →
      coalesce_chunk H c h = Res.ok r h1 → Reachable H D h1
  | free (h h1 : Heap) (c : Nat) :
      Reachable H D h → is_chunk H h c →
      free_chunk H c h = Res.ok () h1 → Reachable H D h1
  | use (h h1 : Heap) (c : Nat) :
      Reachable H D h → is_chunk H h c →
      use_chunk H c h = Res.ok () h1 → Reachable H D h1

/-! ## Auxiliary definitions and example heaps -/

/-- The value `init_heap` stores in `begin->curr_size`: `size - D - 2 * H`
computed in `size_t` and cut to 31 bits. -/
def init_free_size (H D size : Nat) : Nat :=
  (((size : Int) - (D : Int) - 2 * (H : Int)) % (field_mod : Int)).toNat

/-- The heap a call ends with, returned or aborted. -/
def heap_of {α : Type} : Res α → Heap
  | Res.ok _ h => h
  | Res.abort h => h

/-- Whether a call returned normally. -/
def returned {α : Type} : Res α → Bool
  | Res.ok _ _ => true
  | Res.abort _ => false

/-- A raw byte range whose contents read as zeroed headers. -/
def raw_heap : Heap :=
  { info := ⟨0, 0, 0, 0, 0, 0⟩, mem := fun _ => ⟨0, false, 0, false⟩ }

/-- Example: a range of 1000 bytes at address 0, initialised with
`head_size () = 8` and `sizeof (struct info) = 48`. -/
def heap_1000 : Heap := heap_of (init_heap 8 48 1000 0 raw_heap)

/-- Example: `heap_1000` after `split_chunk (begin_chunk (), 200)`. -/
def heap_split : Heap := heap_of (split_chunk 8 48 200 heap_1000)

/-- Example: `heap_split` after `use_chunk (begin_chunk ())`. -/
def heap_used : Heap := heap_of (use_chunk 8 48 heap_split)

/-- Sum of `curr_size` over the chunks `l` of a walk. -/
def walk_total_size (h : Heap) : List Nat → Nat
  | [] => 0
  | c :: l => (h.mem c).curr_size + walk_total_size h l

/-- Sum of `curr_size` over the FREE chunks among `l`: the total free memory. -/
def walk_free_size (h : Heap) : List Nat → Nat
  | [] => 0
  | c :: l => (if is_free_chunk c h then (h.mem c).curr_size else 0) + walk_free_size h l

/-- Maximum `curr_size` among the FREE chunks of `l` (`0` when there is none). -/
def walk_largest (h : Heap) : List Nat → Nat
  | [] => 0
  | c :: l => if is_free_chunk c h then max (h.mem c).curr_size (walk_largest h l)
              else walk_largest h l

/-- The value of `meta_size` after the loop of `alloc_stats` has subtracted, in
`size_t`, the `curr_size` of each chunk of `l` from `m`. -/
def walk_meta_size (h : Heap) : Nat → List Nat → Nat
  | m, [] => m
  | m, c :: l => walk_meta_size h (sub_size_t m (h.mem c).curr_size) l

/-- The successive values of `chunk` in the loop of `alloc_stats`: the chunks
for which the body runs, in the order of the visits, and the chunk at which the
loop condition stops it.  `none` when the fuel runs out or `next_chunk` aborts. -/
def stats_visits (H : Nat) (h : Heap) : Nat → Nat → Option (List Nat × Nat)
  | 0, _ => none
  | fuel + 1, c =>
    if is_end_chunk c h then some ([], c)
    else
      match next_chunk H c h with
      | Res.abort _ => none
      | Res.ok n _ =>
        match stats_visits H h fuel n with
        | none => none
        | some (l, e) => some (c :: l, e)

/-- One allocate-then-free cycle on the first chunk: split off `size` bytes,
mark the first chunk used, mark it free again, and coalesce the remainder back. -/
def alloc_free_cycle (H size : Nat) (h : Heap) : Res Unit :=
  match split_chunk H (begin_chunk h) size h with
  | Res.abort h1 => Res.abort h1
  | Res.ok r h1 =>
    match use_chunk H (begin_chunk h1) h1 with
    | Res.abort h2 => Res.abort h2
    | Res.ok _ h2 =>
      match free_chunk H (begin_chunk h2) h2 with
      | Res.abort h3 => Res.abort h3
      | Res.ok _ h3 =>
        match coalesce_chunk H r h3 with
        | Res.abort h4 => Res.abort h4
        | Res.ok _ h4 => Res.ok () h4

/-- A sequence of allocate-then-free cycles, one per requested size. -/
def alloc_free_cycles (H : Nat) : List Nat → Heap → Res Unit
  | [], h => Res.ok () h
  | size :: sizes, h =>
    match alloc_free_cycle H size h with
    | Res.abort h1 => Res.abort h1
    | Res.ok _ h1 => alloc_free_cycles H sizes h1

/-- Example: `heap_used` after `use_chunk` of its second chunk; no FREE chunk
is left. -/
def heap_full : Heap := heap_of (use_chunk 8 256 heap_used)

/-- Example: a heap whose `arena_size` is 1000 (a range of 1048 bytes with a
48-byte descriptor), after `split_chunk (begin_chunk (), 200)` and
`use_chunk (begin_chunk ())`: one used chunk of 200 bytes, one free chunk. -/
def heap_arena : Heap :=
  heap_of (use_chunk 8 48 (heap_of (split_chunk 8 48 200
    (heap_of (init_heap 8 48 1048 0 raw_heap)))))

/-- Example: `heap_split` after `coalesce_chunk` of its second chunk, the one
at 256, whose header is dead from then on. -/
def heap_merged : Heap := heap_of (coalesce_chunk 8 256 heap_split)

/-- Example: `heap_merged` after `use_chunk` on the dead header at 256. -/
def heap_dead_used : Heap := heap_of (use_chunk 8 256 heap_merged)

/-- Example: `heap_1000` after `split_chunk (begin_chunk (), 936)`, a split at
the full size of the chunk. -/
def heap_overrun : Heap := heap_of (split_chunk 8 48 936 heap_1000)

/-! ## Arithmetic and chain lemmas -/

theorem size_marker_eq : size_marker = 2147483647 := by decide

theorem sub_size_t_eq {a b : Nat} (h1 : b ≤ a) (h2 : a - b < size_t_mod) :
    sub_size_t a b = a - b := by
  unfold sub_size_t
  simp only [size_t_mod] at *
  omega

theorem isChain_le {H : Nat} {h : Heap} : ∀ {l : List Nat} {a e : Nat},
    isChain H h a l e → a + l.length * H ≤ e := by
  intro l
  induction l with
  | nil => intro a e hc; simp [isChain] at hc; simp [hc]
  | cons c l ih =>
    intro a e hc
    obtain ⟨rfl, _, _, _, hr⟩ := hc
    have := ih hr
    simp only [List.length_cons, Nat.add_mul, Nat.one_mul]
    omega

theorem isChain_mem {H : Nat} {h : Heap} : ∀ {l : List Nat} {a e x : Nat},
    isChain H h a l e → x ∈ l → a ≤ x ∧ x + H + (h.mem x).curr_size ≤ e := by
  intro l
  induction l with
  | nil => intro a e x _ hx; simp at hx
  | cons c l ih =>
    intro a e x hc hx
    obtain ⟨rfl, _, _, _, hr⟩ := hc
    rcases List.mem_cons.mp hx with rfl | hx
    · have := isChain_le hr
      exact ⟨le_refl _, by omega⟩
    · have := ih hr hx
      omega

theorem isChain_append {H : Nat} {h : Heap} : ∀ {l1 l2 : List Nat} {a e : Nat},
    isChain H h a (l1 ++ l2) e ↔ ∃ m, isChain H h a l1 m ∧ isChain H h m l2 e := by
  intro l1
  induction l1 with
  | nil =>
    intro l2 a e
    simp [isChain]
  | cons c l ih =>
    intro l2 a e
    constructor
    · intro hc
      rw [List.cons_append] at hc
      obtain ⟨rfl, h1, h2, h3, hr⟩ := hc
      obtain ⟨m, h4, h5⟩ := ih.mp hr
      exact ⟨m, ⟨rfl, h1, h2, h3, h4⟩, h5⟩
    · rintro ⟨m, ⟨rfl, h1, h2, h3, h4⟩, h5⟩
      rw [List.cons_append]
      exact ⟨rfl, h1, h2, h3, ih.mpr ⟨m, h4, h5⟩⟩

theorem isChain_frame {H : Nat} (hH : 0 < H) {h h' : Heap} : ∀ {l : List Nat} {a e : Nat},
    isChain H h a l e →
    (∀ x, a ≤ x → x < e → (h'.mem x).curr_size = (h.mem x).curr_size ∧
      (h'.mem x).curr_state = (h.mem x).curr_state) →
    (∀ x, a < x → x ≤ e → (h'.mem x).prev_size = (h.mem x).prev_size ∧
      (h'.mem x).prev_state = (h.mem x).prev_state) →
    isChain H h' a l e := by
  intro l
  induction l with
  | nil => intro a e hc _ _; exact hc
  | cons c l ih =>
    intro a e hc hcur hprev
    obtain ⟨rfl, h1, h2, h3, hr⟩ := hc
    have hle := isChain_le hr
    have hc1 := hcur a (le_refl _) (by omega)
    have hp1 := hprev (a + H + (h.mem a).curr_size) (by omega) (by omega)
    refine ⟨rfl, ?_, ?_, ?_, ?_⟩
    · rw [hc1.1]; exact h1
    · rw [hc1.1, hp1.1]; exact h2
    · rw [hc1.1, hc1.2, hp1.2]; exact h3
    · rw [hc1.1]
      exact ih hr (fun x hx1 hx2 => hcur x (by omega) hx2) (fun x hx1 hx2 => hprev x (by omega) hx2)

/-! ## The operations in closed form -/

@[simp] theorem store_mem (h : Heap) (c : Nat) (v : chunk) (x : Nat) :
    (store h c v).mem x = if x = c then v else h.mem x := rfl

@[simp] theorem store_info (h : Heap) (c : Nat) (v : chunk) : (store h c v).info = h.info := rfl

theorem is_end_chunk_false_of_lt {c : Nat} {h : Heap} (hb : (h.mem c).curr_size < size_marker) :
    is_end_chunk c h = false := by
  simp only [is_end_chunk, beq_eq_false_iff_ne]; omega

/-- Header memory after a split in closed form. -/
theorem split_chunk_mem {H c size r : Nat} {h h1 : Heap} (hH : 0 < H)
    (hs : size + H ≤ (h.mem c).curr_size)
    (hb : (h.mem c).curr_size < size_marker)
    (hr : split_chunk H c size h = Res.ok r h1) :
    is_free_chunk c h = true ∧ r = c + H + size ∧ h1.info = h.info ∧
      ∀ x, h1.mem x =
        if x = c + H + size then
          { prev_size := size, prev_state := FREE_CHUNK,
            curr_size := (h.mem c).curr_size - size - H, curr_state := FREE_CHUNK }
        else if x = c + H + (h.mem c).curr_size then
          { h.mem x with prev_size := (h.mem c).curr_size - size - H }
        else if x = c then { h.mem x with curr_size := size }
        else h.mem x := by
  have he := is_end_chunk_false_of_lt hb
  rw [size_marker_eq] at hb
  have hd : sub_size_t (c + H + (h.mem c).curr_size) (c + H + size + H)
      = (h.mem c).curr_size - size - H := by
    rw [sub_size_t_eq (by omega) (by simp only [size_t_mod]; omega)]; omega
  unfold split_chunk at hr
  by_cases hf : is_free_chunk c h = true
  · simp only [hf, next_chunk, he, chunk_data, if_true, Bool.false_eq_true, if_false,
      Res.ok.injEq] at hr
    obtain ⟨rfl, rfl⟩ := hr
    refine ⟨hf, rfl, rfl, ?_⟩
    intro x
    simp only [set_prev_size, set_curr_size, set_prev_state, set_curr_state, store_mem, hd,
      field_mod]
    have e1 : size % 2147483648 = size := Nat.mod_eq_of_lt (by omega)
    have e2 : ((h.mem c).curr_size - size - H) % 2147483648 = (h.mem c).curr_size - size - H :=
      Nat.mod_eq_of_lt (by omega)
    have n1 : c ≠ c + H + size := by omega
    have n2 : c + H + (h.mem c).curr_size ≠ c + H + size := by omega
    have n3 : c + H + (h.mem c).curr_size ≠ c := by omega
    by_cases h1 : x = c + H + size
    · subst h1
      simp [e1, e2, n1, n2, n1.symm, n2.symm]
    · by_cases h2 : x = c + H + (h.mem c).curr_size
      · subst h2
        simp [e1, e2, n1, n2, n3, n1.symm, n2.symm, n3.symm]
      · by_cases h3 : x = c
        · subst h3
          simp [e1, e2, n1, n2, n3, n1.symm, n2.symm, n3.symm]
        · simp [h1, h2, h3]
  · simp [hf] at hr

theorem split_chunk_ok {H c size : Nat} {h : Heap}
    (hf : is_free_chunk c h = true) (he : is_end_chunk c h = false) :
    ∃ h1, split_chunk H c size h = Res.ok (chunk_data H c + size) h1 := by
  simp [split_chunk, hf, next_chunk, he]

/-- Header memory after a coalesce in closed form, `p` being the predecessor. -/
theorem coalesce_chunk_mem {H c p r : Nat} {h h1 : Heap} (hH : 0 < H)
    (hp : p + H + (h.mem c).prev_size = c)
    (hm : (h.mem c).prev_size ≠ size_marker)
    (hb : (h.mem c).prev_size + H + (h.mem c).curr_size < size_marker)
    (hr : coalesce_chunk H c h = Res.ok r h1) :
    is_free_chunk c h = true ∧ is_free_prev_chunk c h = true ∧ r = p ∧ h1.info = h.info ∧
      ∀ x, h1.mem x =
        if x = p then
          { h.mem x with curr_size := (h.mem c).prev_size + H + (h.mem c).curr_size }
        else if x = c + H + (h.mem c).curr_size then
          { h.mem x with prev_size := (h.mem c).prev_size + H + (h.mem c).curr_size }
        else h.mem x := by
  have he : is_end_chunk c h = false := is_end_chunk_false_of_lt (by omega)
  have hbg : is_begin_chunk c h = false := by
    simp only [is_begin_chunk, beq_eq_false_iff_ne]; exact hm
  rw [size_marker_eq] at hb
  have hpe : c - (h.mem c).prev_size - H = p := by omega
  have hd : sub_size_t (c + H + (h.mem c).curr_size) (p + H)
      = (h.mem c).prev_size + H + (h.mem c).curr_size := by
    rw [sub_size_t_eq (by omega) (by simp only [size_t_mod]; omega)]; omega
  unfold coalesce_chunk at hr
  by_cases hf : is_free_chunk c h = true
  · by_cases hfp : is_free_prev_chunk c h = true
    · simp only [hf, hfp, prev_chunk, next_chunk, he, hbg, chunk_data, data_chunk,
        prev_chunk_data, if_true, Bool.false_eq_true, if_false, Res.ok.injEq, hpe] at hr
      obtain ⟨rfl, rfl⟩ := hr
      refine ⟨hf, hfp, rfl, rfl, ?_⟩
      intro x
      simp only [set_prev_size, set_curr_size, store_mem, hd, field_mod]
      have e1 : ((h.mem c).prev_size + H + (h.mem c).curr_size) % 2147483648
          = (h.mem c).prev_size + H + (h.mem c).curr_size := Nat.mod_eq_of_lt (by omega)
      have n1 : c + H + (h.mem c).curr_size ≠ p := by omega
      by_cases h1 : x = p
      · subst h1
        simp [e1, n1, n1.symm]
      · by_cases h2 : x = c + H + (h.mem c).curr_size
        · subst h2
          simp [e1, n1, n1.symm]
        · simp [h1, h2]
    · simp [hf, hfp] at hr
  · simp [hf] at hr

theorem set_curr_state_mem_self (h : Heap) (c : Nat) (s : Bool) :
    (set_curr_state h c s).mem c = { h.mem c with curr_state := s } := by
  simp [set_curr_state]

theorem is_end_chunk_set_curr_state (h : Heap) (c d : Nat) (s : Bool) :
    is_end_chunk c (set_curr_state h d s) = is_end_chunk c h := by
  unfold is_end_chunk set_curr_state
  by_cases hcd : c = d
  · subst hcd; simp
  · simp [hcd]

/-- The two evaluation orders of the assignment in `use_chunk` agree unless the
call aborts on a header that is FREE and end-marked. -/
theorem use_chunk_eq_call_first {H c : Nat} {h : Heap}
    (hc : is_free_chunk c h = false ∨ is_end_chunk c h = false) :
    use_chunk H c h = use_chunk_call_first H c h := by
  unfold use_chunk use_chunk_call_first
  by_cases hf : is_free_chunk c h = true
  · have he : is_end_chunk c h = false := by
      rcases hc with hc | hc
      · rw [hf] at hc; cases hc
      · exact hc
    simp only [hf, he, next_chunk, is_end_chunk_set_curr_state, if_true, Bool.false_eq_true,
      if_false, set_curr_state_mem_self]
  · simp [hf]

/-- A call of `use_chunk` returns the same heap under both evaluation orders. -/
theorem use_chunk_returns_iff {H c : Nat} {h h1 : Heap} :
    use_chunk H c h = Res.ok () h1 ↔ use_chunk_call_first H c h = Res.ok () h1 := by
  by_cases hc : is_free_chunk c h = false ∨ is_end_chunk c h = false
  · rw [use_chunk_eq_call_first hc]
  · have hf : is_free_chunk c h = true := by
      by_cases hx : is_free_chunk c h = true
      · exact hx
      · exact absurd (Or.inl (by simpa using hx)) hc
    have he : is_end_chunk c h = true := by
      by_cases hx : is_end_chunk c h = true
      · exact hx
      · exact absurd (Or.inr (by simpa using hx)) hc
    constructor
    · intro hr
      simp [use_chunk, hf, next_chunk, is_end_chunk_set_curr_state, he] at hr
    · intro hr
      simp [use_chunk_call_first, hf, next_chunk, he] at hr

/-- Header memory after `use_chunk` or `free_chunk` in closed form. -/
theorem use_chunk_mem {H c : Nat} {h h1 : Heap} (hH : 0 < H)
    (hr : use_chunk H c h = Res.ok () h1) :
    is_free_chunk c h = true ∧ is_end_chunk c h = false ∧ h1.info = h.info ∧
      ∀ x, h1.mem x =
        if x = c + H + (h.mem c).curr_size then { h.mem x with prev_state := USED_CHUNK }
        else if x = c then { h.mem x with curr_state := USED_CHUNK }
        else h.mem x := by
  rw [use_chunk_returns_iff] at hr
  unfold use_chunk_call_first at hr
  by_cases hf : is_free_chunk c h = true
  · by_cases he : is_end_chunk c h = true
    · simp [hf, he, next_chunk] at hr
    · simp only [hf, next_chunk, he, chunk_data, if_true, Bool.false_eq_true, if_false,
        Res.ok.injEq, true_and] at hr
      subst hr
      refine ⟨hf, by simpa using he, rfl, ?_⟩
      intro x
      simp only [set_prev_state, set_curr_state, store_mem]
      have n1 : c + H + (h.mem c).curr_size ≠ c := by omega
      by_cases h1 : x = c + H + (h.mem c).curr_size
      · subst h1
        simp [n1]
      · by_cases h2 : x = c
        · subst h2
          simp [n1, n1.symm]
        · simp [h1, h2]
  · simp [hf] at hr

theorem free_chunk_mem {H c : Nat} {h h1 : Heap} (hH : 0 < H)
    (hr : free_chunk H c h = Res.ok () h1) :
    is_used_chunk c h = true ∧ is_end_chunk c h = false ∧ h1.info = h.info ∧
      ∀ x, h1.mem x =
        if x = c + H + (h.mem c).curr_size then { h.mem x with prev_state := FREE_CHUNK }
        else if x = c then { h.mem x with curr_state := FREE_CHUNK }
        else h.mem x := by
  unfold free_chunk at hr
  by_cases hf : is_used_chunk c h = true
  · by_cases he : is_end_chunk c h = true
    · simp [hf, he, next_chunk] at hr
    · simp only [hf, next_chunk, he, chunk_data, if_true, Bool.false_eq_true, if_false,
        Res.ok.injEq, true_and] at hr
      subst hr
      refine ⟨hf, by simpa using he, rfl, ?_⟩
      intro x
      simp only [set_prev_state, set_curr_state, store_mem]
      have n1 : c + H + (h.mem c).curr_size ≠ c := by omega
      by_cases h1 : x = c + H + (h.mem c).curr_size
      · subst h1
        simp [n1]
      · by_cases h2 : x = c
        · subst h2
          simp [n1, n1.symm]
        · simp [h1, h2]
  · simp [hf] at hr

/-! ## Walks, chains and well-formedness -/

theorem is_end_chunk_false_iff {c : Nat} {h : Heap} :
    is_end_chunk c h = false ↔ (h.mem c).curr_size ≠ size_marker := by
  simp [is_end_chunk]

theorem adjacent_at_iff {H A : Nat} {h : Heap} :
    adjacent_at H h A ↔ (h.mem A).curr_size ≠ size_marker ∧
      (h.mem (A + H + (h.mem A).curr_size)).prev_size = (h.mem A).curr_size ∧
      (h.mem (A + H + (h.mem A).curr_size)).prev_state = (h.mem A).curr_state := by
  unfold adjacent_at next_chunk chunk_data
  by_cases he : is_end_chunk A h = true
  · have : (h.mem A).curr_size = size_marker := by simpa [is_end_chunk] using he
    simp [he, this]
  · have hne : (h.mem A).curr_size ≠ size_marker := by simpa [is_end_chunk] using he
    simp only [he, Bool.false_eq_true, if_false, Res.ok.injEq, and_true]
    constructor
    · rintro ⟨B, rfl, h1, h2⟩
      exact ⟨hne, h1, h2⟩
    · rintro ⟨_, h1, h2⟩
      exact ⟨_, rfl, h1, h2⟩

theorem isChain_of_walk {H : Nat} {h : Heap} : ∀ {l : List Nat} {a e : Nat},
    isWalk H h a l e → (∀ A ∈ l, adjacent_at H h A) → isChain H h a l e := by
  intro l
  induction l with
  | nil => intro a e hw _; exact hw.1
  | cons c l ih =>
    intro a e hw hadj
    obtain ⟨rfl, hne, hr⟩ := hw
    obtain ⟨h1, h2, h3⟩ := adjacent_at_iff.mp (hadj a (List.mem_cons_self _ _))
    exact ⟨rfl, h1, h2, h3, ih hr (fun A hA => hadj A (List.mem_cons_of_mem _ hA))⟩

theorem isWalk_of_chain {H : Nat} {h : Heap} : ∀ {l : List Nat} {a e : Nat},
    isChain H h a l e → is_end_chunk e h = true → isWalk H h a l e := by
  intro l
  induction l with
  | nil => intro a e hc he; exact ⟨hc, he⟩
  | cons c l ih =>
    intro a e hc he
    obtain ⟨rfl, h1, _, _, hr⟩ := hc
    exact ⟨rfl, is_end_chunk_false_iff.mpr h1, ih hr he⟩

theorem adjacent_of_chain {H : Nat} {h : Heap} : ∀ {l : List Nat} {a e : Nat},
    isChain H h a l e → ∀ A ∈ l, adjacent_at H h A := by
  intro l
  induction l with
  | nil => intro a e _ A hA; simp at hA
  | cons c l ih =>
    intro a e hc A hA
    obtain ⟨rfl, h1, h2, h3, hr⟩ := hc
    rcases List.mem_cons.mp hA with rfl | hA
    · exact adjacent_at_iff.mpr ⟨h1, h2, h3⟩
    · exact ih hr A hA

theorem isWalk_unique {H : Nat} {h : Heap} : ∀ {l l1 : List Nat} {a e e1 : Nat},
    isWalk H h a l e → isWalk H h a l1 e1 → l = l1 ∧ e = e1 := by
  intro l
  induction l with
  | nil =>
    intro l1 a e e1 hw hw1
    obtain ⟨rfl, he⟩ := hw
    cases l1 with
    | nil => exact ⟨rfl, hw1.1⟩
    | cons c l1 =>
      obtain ⟨rfl, hne, _⟩ := hw1
      rw [he] at hne; cases hne
  | cons c l ih =>
    intro l1 a e e1 hw hw1
    obtain ⟨rfl, hne, hr⟩ := hw
    cases l1 with
    | nil =>
      obtain ⟨rfl, he⟩ := hw1
      rw [he] at hne; cases hne
    | cons c1 l1 =>
      obtain ⟨rfl, _, hr1⟩ := hw1
      obtain ⟨rfl, rfl⟩ := ih hr hr1
      exact ⟨rfl, rfl⟩

theorem WellFormed.chain {H : Nat} {h : Heap} {l : List Nat} (hwf : WellFormed H h l) :
    isChain H h (begin_chunk h) l (end_chunk h) :=
  isChain_of_walk hwf.walk hwf.adj

theorem WellFormed.end_marker {H : Nat} {h : Heap} {l : List Nat} (hwf : WellFormed H h l) :
    (h.mem (end_chunk h)).curr_size = size_marker := by
  have : ∀ {l : List Nat} {a e : Nat}, isWalk H h a l e → is_end_chunk e h = true := by
    intro l
    induction l with
    | nil => intro a e hw; exact hw.2
    | cons c l ih => intro a e hw; exact ih hw.2.2
  simpa [is_end_chunk] using this hwf.walk

/-- Build a well-formed heap from its chain. -/
theorem WellFormed.of_chain {H : Nat} {h : Heap} {l : List Nat} (hH : 0 < H)
    (hc : isChain H h (begin_chunk h) l (end_chunk h))
    (he : (h.mem (end_chunk h)).curr_size = size_marker)
    (hbm : (h.mem (begin_chunk h)).prev_size = size_marker)
    (hbu : (h.mem (begin_chunk h)).prev_state = USED_CHUNK)
    (heu : (h.mem (end_chunk h)).curr_state = USED_CHUNK)
    (hx : end_chunk h < begin_chunk h + H + size_marker) : WellFormed H h l :=
  { head_pos := hH
    walk := isWalk_of_chain hc (by simp [is_end_chunk, he])
    adj := adjacent_of_chain hc
    begin_marker := hbm
    begin_prev_used := hbu
    end_used := heu
    extent := hx }

/-- Position and size bounds of a chunk of a well-formed heap. -/
theorem WellFormed.bounds {H : Nat} {h : Heap} {l : List Nat} (hwf : WellFormed H h l)
    {c : Nat} (hc : c ∈ l) :
    begin_chunk h ≤ c ∧ c + H + (h.mem c).curr_size ≤ end_chunk h ∧
      (h.mem c).curr_size < size_marker := by
  have := isChain_mem hwf.chain hc
  have := hwf.extent
  omega

theorem isChain_pred {H : Nat} {h : Heap} : ∀ {l : List Nat} {a e c : Nat},
    isChain H h a l e → c ∈ l → c ≠ a → ∃ l1 p l2, l = l1 ++ p :: c :: l2 := by
  intro l
  induction l with
  | nil => intro a e c _ hc; simp at hc
  | cons b l ih =>
    intro a e c hch hc hne
    obtain ⟨rfl, _, _, _, hr⟩ := hch
    rcases List.mem_cons.mp hc with rfl | hc
    · exact absurd rfl hne
    · cases l with
      | nil => simp at hc
      | cons b1 l =>
        by_cases hcb : c = b1
        · subst hcb
          exact ⟨[], a, l, rfl⟩
        · have hb1 : a + H + (h.mem a).curr_size = b1 := hr.1
          obtain ⟨l1, p, l2, hl⟩ := ih hr hc (by rw [hb1]; exact hcb)
          exact ⟨a :: l1, p, l2, by rw [hl]; rfl⟩

theorem isChain_last {H : Nat} {h : Heap} : ∀ {l : List Nat} {a e : Nat},
    isChain H h a l e → e ≠ a → ∃ p ∈ l, e = p + H + (h.mem p).curr_size := by
  intro l
  induction l with
  | nil => intro a e hch hne; exact absurd hch.symm hne
  | cons b l ih =>
    intro a e hch hne
    obtain ⟨rfl, _, _, _, hr⟩ := hch
    by_cases he : e = a + H + (h.mem a).curr_size
    · exact ⟨a, List.mem_cons_self _ _, he⟩
    · obtain ⟨p, hp, hpe⟩ := ih hr he
      exact ⟨p, List.mem_cons_of_mem _ hp, hpe⟩

/-- A chunk other than the begin chunk has its predecessor on the walk. -/
theorem WellFormed.pred {H : Nat} {h : Heap} {l : List Nat} (hwf : WellFormed H h l)
    {c : Nat} (hc : c ∈ l ∨ c = end_chunk h) (hne : c ≠ begin_chunk h) :
    ∃ p ∈ l, c = p + H + (h.mem p).curr_size := by
  rcases hc with hc | rfl
  · obtain ⟨l1, p, l2, rfl⟩ := isChain_pred hwf.chain hc hne
    obtain ⟨m, _, hc2⟩ := isChain_append.mp hwf.chain
    obtain ⟨rfl, _, _, _, hc3⟩ := hc2
    exact ⟨m, by simp, hc3.1.symm⟩
  · exact isChain_last hwf.chain hne

/-! ## The mutators preserve well-formedness -/

theorem WellFormed.split {H c size r : Nat} {h h1 : Heap} {l : List Nat}
    (hwf : WellFormed H h l) (hc : c ∈ l) (hs : size + H ≤ (h.mem c).curr_size)
    (hr : split_chunk H c size h = Res.ok r h1) :
    ∃ l1 l2, l = l1 ++ c :: l2 ∧ WellFormed H h1 (l1 ++ c :: r :: l2) := by
  have hH := hwf.head_pos
  have hb := hwf.bounds hc
  obtain ⟨hf, rfl, hinfo, hm⟩ := split_chunk_mem hH hs hb.2.2 hr
  have hfree : (h.mem c).curr_state = FREE_CHUNK := by simpa [is_free_chunk] using hf
  obtain ⟨l1, l2, rfl⟩ := List.append_of_mem hc
  have hch := hwf.chain
  obtain ⟨m, hc1, hc2⟩ := isChain_append.mp hch
  obtain ⟨rfl, q1, q2, q3, hc3⟩ := hc2
  have hle1 := isChain_le hc1
  have hle3 := isChain_le hc3
  have hbe : begin_chunk h1 = begin_chunk h := by simp [begin_chunk, hinfo]
  have hee : end_chunk h1 = end_chunk h := by simp [end_chunk, hinfo]
  have hmk := size_marker_eq
  have hlow : ∀ x, x < m → h1.mem x = h.mem x := fun x hx => by
    rw [hm x, if_neg (by omega), if_neg (by omega), if_neg (by omega)]
  have hhigh : ∀ x, m + H + (h.mem m).curr_size < x → h1.mem x = h.mem x := fun x hx => by
    rw [hm x, if_neg (by omega), if_neg (by omega), if_neg (by omega)]
  have hc' : h1.mem m = { h.mem m with curr_size := size } := by
    rw [hm m, if_neg (by omega), if_neg (by omega), if_pos rfl]
  have hr' : h1.mem (m + H + size) =
      ⟨size, FREE_CHUNK, (h.mem m).curr_size - size - H, FREE_CHUNK⟩ := by
    rw [hm _, if_pos rfl]
  have hn' : h1.mem (m + H + (h.mem m).curr_size) =
      { h.mem (m + H + (h.mem m).curr_size) with
        prev_size := (h.mem m).curr_size - size - H } := by
    rw [hm _, if_neg (by omega), if_pos rfl]
  have hnx : m + H + size + H + ((h.mem m).curr_size - size - H)
      = m + H + (h.mem m).curr_size := by omega
  refine ⟨l1, l2, rfl, WellFormed.of_chain hH ?_ ?_ ?_ ?_ ?_ ?_⟩
  · rw [hbe, hee]
    refine isChain_append.mpr ⟨m, isChain_frame hH hc1 ?_ ?_, ?_⟩
    · intro x _ hx; rw [hlow x hx]; exact ⟨rfl, rfl⟩
    · intro x _ hx
      rcases Nat.lt_or_ge x m with hx1 | hx1
      · rw [hlow x hx1]; exact ⟨rfl, rfl⟩
      · have : x = m := by omega
        subst this; rw [hc']; exact ⟨rfl, rfl⟩
    · refine ⟨rfl, ?_, ?_, ?_, ?_⟩
      · rw [hc']; simp only; omega
      · rw [hc']; simp only; rw [hr']
      · rw [hc']; simp only; rw [hr']; exact hfree.symm
      · rw [hc']; simp only
        refine ⟨rfl, ?_, ?_, ?_, ?_⟩
        · rw [hr']; simp only; omega
        · rw [hr']; simp only; rw [hnx, hn']
        · rw [hr']; simp only; rw [hnx, hn']; simp only; rw [q3]; exact hfree
        · rw [hr']; simp only; rw [hnx]
          refine isChain_frame hH hc3 ?_ ?_
          · intro x hx1 _
            rcases Nat.lt_or_ge (m + H + (h.mem m).curr_size) x with hx2 | hx2
            · rw [hhigh x hx2]; exact ⟨rfl, rfl⟩
            · have : x = m + H + (h.mem m).curr_size := by omega
              subst this; rw [hn']; exact ⟨rfl, rfl⟩
          · intro x hx1 _; rw [hhigh x hx1]; exact ⟨rfl, rfl⟩
  · rw [hee]
    rcases Nat.lt_or_ge (m + H + (h.mem m).curr_size) (end_chunk h) with hx2 | hx2
    · rw [hhigh _ hx2]; exact hwf.end_marker
    · have : end_chunk h = m + H + (h.mem m).curr_size := by omega
      rw [this, hn']; simp only; rw [← this]; exact hwf.end_marker
  · rw [hbe]
    rcases Nat.lt_or_ge (begin_chunk h) m with hx1 | hx1
    · rw [hlow _ hx1]; exact hwf.begin_marker
    · have : begin_chunk h = m := by simp at hle1; omega
      rw [this, hc']; simp only; rw [← this]; exact hwf.begin_marker
  · rw [hbe]
    rcases Nat.lt_or_ge (begin_chunk h) m with hx1 | hx1
    · rw [hlow _ hx1]; exact hwf.begin_prev_used
    · have : begin_chunk h = m := by simp at hle1; omega
      rw [this, hc']; simp only; rw [← this]; exact hwf.begin_prev_used
  · rw [hee]
    rcases Nat.lt_or_ge (m + H + (h.mem m).curr_size) (end_chunk h) with hx2 | hx2
    · rw [hhigh _ hx2]; exact hwf.end_used
    · have : end_chunk h = m + H + (h.mem m).curr_size := by omega
      rw [this, hn']; simp only; rw [← this]; exact hwf.end_used
  · rw [hbe, hee]; exact hwf.extent

theorem coalesce_chunk_asserts {H c r : Nat} {h h1 : Heap}
    (hr : coalesce_chunk H c h = Res.ok r h1) :
    is_free_chunk c h = true ∧ is_free_prev_chunk c h = true := by
  unfold coalesce_chunk at hr
  by_cases hf : is_free_chunk c h = true
  · by_cases hfp : is_free_prev_chunk c h = true
    · exact ⟨hf, hfp⟩
    · simp [hf, hfp] at hr
  · simp [hf] at hr

/-- The facts about a coalesce in a well-formed heap: the walk splits around the
predecessor `p` and the chunk `c`, and the arguments of the closed form hold. -/
theorem WellFormed.coalesce_pre {H c : Nat} {h : Heap} {l : List Nat}
    (hwf : WellFormed H h l) (hc : c ∈ l) (hfp : is_free_prev_chunk c h = true) :
    ∃ l1 p l2, l = l1 ++ p :: c :: l2 ∧ p + H + (h.mem c).prev_size = c ∧
      (h.mem c).prev_size = (h.mem p).curr_size ∧
      (h.mem c).prev_state = (h.mem p).curr_state ∧
      (h.mem c).prev_size ≠ size_marker ∧
      (h.mem c).prev_size + H + (h.mem c).curr_size < size_marker := by
  have hne : c ≠ begin_chunk h := by
    intro he
    have h1 := hwf.begin_prev_used
    rw [← he] at h1
    simp [is_free_prev_chunk, h1] at hfp
  obtain ⟨l1, p, l2, rfl⟩ := isChain_pred hwf.chain hc hne
  obtain ⟨m, hc1, hc2⟩ := isChain_append.mp hwf.chain
  obtain ⟨rfl, q1, q2, q3, hc3⟩ := hc2
  obtain ⟨hpc, r1, r2, r3, hc4⟩ := hc3
  rw [hpc] at q2 q3
  have hle1 := isChain_le hc1
  have hle4 := isChain_le hc4
  have hx := hwf.extent
  refine ⟨l1, m, l2, rfl, by omega, q2, q3, by rw [q2]; exact q1, by omega⟩

theorem WellFormed.coalesce {H c r : Nat} {h h1 : Heap} {l : List Nat}
    (hwf : WellFormed H h l) (hc : c ∈ l)
    (hr : coalesce_chunk H c h = Res.ok r h1) :
    ∃ l1 l2, l = l1 ++ r :: c :: l2 ∧ WellFormed H h1 (l1 ++ r :: l2) := by
  have hH := hwf.head_pos
  obtain ⟨hf0, hfp0⟩ := coalesce_chunk_asserts hr
  obtain ⟨l1, p, l2, rfl, hp, hps, hpst, hnm, hbd⟩ := hwf.coalesce_pre hc hfp0
  obtain ⟨hf, hfp, rfl, hinfo, hm⟩ := coalesce_chunk_mem hH hp hnm hbd hr
  have hfree : (h.mem c).curr_state = FREE_CHUNK := by simpa [is_free_chunk] using hf
  have hpfree : (h.mem c).prev_state = FREE_CHUNK := by simpa [is_free_prev_chunk] using hfp
  obtain ⟨m, hc1, hc2⟩ := isChain_append.mp hwf.chain
  obtain ⟨rfl, q1, q2, q3, hc3⟩ := hc2
  obtain ⟨hpc, r1, r2, r3, hc4⟩ := hc3
  have hle1 := isChain_le hc1
  have hle4 := isChain_le hc4
  have hbe : begin_chunk h1 = begin_chunk h := by simp [begin_chunk, hinfo]
  have hee : end_chunk h1 = end_chunk h := by simp [end_chunk, hinfo]
  have hmk := size_marker_eq
  have hlow : ∀ x, x < m → h1.mem x = h.mem x := fun x hx => by
    rw [hm x, if_neg (by omega), if_neg (by omega)]
  have hhigh : ∀ x, c + H + (h.mem c).curr_size < x → h1.mem x = h.mem x := fun x hx => by
    rw [hm x, if_neg (by omega), if_neg (by omega)]
  have hp' : h1.mem m =
      { h.mem m with curr_size := (h.mem c).prev_size + H + (h.mem c).curr_size } := by
    rw [hm m, if_pos rfl]
  have hn' : h1.mem (c + H + (h.mem c).curr_size) =
      { h.mem (c + H + (h.mem c).curr_size) with
        prev_size := (h.mem c).prev_size + H + (h.mem c).curr_size } := by
    rw [hm _, if_neg (by omega), if_pos rfl]
  have hnx : m + H + ((h.mem c).prev_size + H + (h.mem c).curr_size)
      = c + H + (h.mem c).curr_size := by omega
  refine ⟨l1, l2, rfl, WellFormed.of_chain hH ?_ ?_ ?_ ?_ ?_ ?_⟩
  · rw [hbe, hee]
    refine isChain_append.mpr ⟨m, isChain_frame hH hc1 ?_ ?_, ?_⟩
    · intro x _ hx; rw [hlow x hx]; exact ⟨rfl, rfl⟩
    · intro x _ hx
      rcases Nat.lt_or_ge x m with hx1 | hx1
      · rw [hlow x hx1]; exact ⟨rfl, rfl⟩
      · have : x = m := by omega
        subst this; rw [hp']; exact ⟨rfl, rfl⟩
    · refine ⟨rfl, ?_, ?_, ?_, ?_⟩
      · rw [hp']; simp only; omega
      · rw [hp']; simp only; rw [hnx, hn']
      · rw [hp']; simp only; rw [hnx, hn']; simp only; rw [r3, hfree, ← hpst, hpfree]
      · rw [hp']; simp only; rw [hnx]
        refine isChain_frame hH hc4 ?_ ?_
        · intro x hx1 _
          rcases Nat.lt_or_ge (c + H + (h.mem c).curr_size) x with hx2 | hx2
          · rw [hhigh x hx2]; exact ⟨rfl, rfl⟩
          · have : x = c + H + (h.mem c).curr_size := by omega
            subst this; rw [hn']; exact ⟨rfl, rfl⟩
        · intro x hx1 _; rw [hhigh x hx1]; exact ⟨rfl, rfl⟩
  · rw [hee]
    rcases Nat.lt_or_ge (c + H + (h.mem c).curr_size) (end_chunk h) with hx2 | hx2
    · rw [hhigh _ hx2]; exact hwf.end_marker
    · have : end_chunk h = c + H + (h.mem c).curr_size := by omega
      rw [this, hn']; simp only; rw [← this]; exact hwf.end_marker
  · rw [hbe]
    rcases Nat.lt_or_ge (begin_chunk h) m with hx1 | hx1
    · rw [hlow _ hx1]; exact hwf.begin_marker
    · have : begin_chunk h = m := by simp at hle1; omega
      rw [this, hp']; simp only; rw [← this]; exact hwf.begin_marker
  · rw [hbe]
    rcases Nat.lt_or_ge (begin_chunk h) m with hx1 | hx1
    · rw [hlow _ hx1]; exact hwf.begin_prev_used
    · have : begin_chunk h = m := by simp at hle1; omega
      rw [this, hp']; simp only; rw [← this]; exact hwf.begin_prev_used
  · rw [hee]
    rcases Nat.lt_or_ge (c + H + (h.mem c).curr_size) (end_chunk h) with hx2 | hx2
    · rw [hhigh _ hx2]; exact hwf.end_used
    · have : end_chunk h = c + H + (h.mem c).curr_size := by omega
      rw [this, hn']; simp only; rw [← this]; exact hwf.end_used
  · rw [hbe, hee]; exact hwf.extent

/-- A state toggle of a chunk of the walk, given in closed form, keeps the heap
well-formed with the same chunk sequence. -/
theorem WellFormed.toggle {H c : Nat} {s : Bool} {h h1 : Heap} {l : List Nat}
    (hwf : WellFormed H h l) (hc : c ∈ l) (hinfo : h1.info = h.info)
    (hm : ∀ x, h1.mem x =
        if x = c + H + (h.mem c).curr_size then { h.mem x with prev_state := s }
        else if x = c then { h.mem x with curr_state := s }
        else h.mem x) :
    WellFormed H h1 l := by
  have hH := hwf.head_pos
  have hwf0 := hwf
  obtain ⟨l1, l2, rfl⟩ := List.append_of_mem hc
  obtain ⟨m, hc1, hc2⟩ := isChain_append.mp hwf.chain
  obtain ⟨rfl, q1, q2, q3, hc3⟩ := hc2
  have hle1 := isChain_le hc1
  have hle3 := isChain_le hc3
  have hbe : begin_chunk h1 = begin_chunk h := by simp [begin_chunk, hinfo]
  have hee : end_chunk h1 = end_chunk h := by simp [end_chunk, hinfo]
  have hlow : ∀ x, x < m → h1.mem x = h.mem x := fun x hx => by
    rw [hm x, if_neg (by omega), if_neg (by omega)]
  have hhigh : ∀ x, m + H + (h.mem m).curr_size < x → h1.mem x = h.mem x := fun x hx => by
    rw [hm x, if_neg (by omega), if_neg (by omega)]
  have hc' : h1.mem m = { h.mem m with curr_state := s } := by
    rw [hm m, if_neg (by omega), if_pos rfl]
  have hn' : h1.mem (m + H + (h.mem m).curr_size) =
      { h.mem (m + H + (h.mem m).curr_size) with prev_state := s } := by
    rw [hm _, if_pos rfl]
  refine WellFormed.of_chain hH ?_ ?_ ?_ ?_ ?_ ?_
  · rw [hbe, hee]
    refine isChain_append.mpr ⟨m, isChain_frame hH hc1 ?_ ?_, ?_⟩
    · intro x _ hx; rw [hlow x hx]; exact ⟨rfl, rfl⟩
    · intro x _ hx
      rcases Nat.lt_or_ge x m with hx1 | hx1
      · rw [hlow x hx1]; exact ⟨rfl, rfl⟩
      · have : x = m := by omega
        subst this; rw [hc']; exact ⟨rfl, rfl⟩
    · refine ⟨rfl, ?_, ?_, ?_, ?_⟩
      · rw [hc']; exact q1
      · rw [hc']; simp only; rw [hn']; exact q2
      · rw [hc']; simp only; rw [hn']
      · rw [hc']; simp only
        refine isChain_frame hH hc3 ?_ ?_
        · intro x hx1 _
          rcases Nat.lt_or_ge (m + H + (h.mem m).curr_size) x with hx2 | hx2
          · rw [hhigh x hx2]; exact ⟨rfl, rfl⟩
          · have : x = m + H + (h.mem m).curr_size := by omega
            subst this; rw [hn']; exact ⟨rfl, rfl⟩
        · intro x hx1 _; rw [hhigh x hx1]; exact ⟨rfl, rfl⟩
  · rw [hee]
    rcases Nat.lt_or_ge (m + H + (h.mem m).curr_size) (end_chunk h) with hx2 | hx2
    · rw [hhigh _ hx2]; exact hwf.end_marker
    · have : end_chunk h = m + H + (h.mem m).curr_size := by omega
      rw [this, hn']; simp only; rw [← this]; exact hwf.end_marker
  · rw [hbe]
    rcases Nat.lt_or_ge (begin_chunk h) m with hx1 | hx1
    · rw [hlow _ hx1]; exact hwf.begin_marker
    · have : begin_chunk h = m := by simp at hle1; omega
      rw [this, hc']; simp only; rw [← this]; exact hwf.begin_marker
  · rw [hbe]
    rcases Nat.lt_or_ge (begin_chunk h) m with hx1 | hx1
    · rw [hlow _ hx1]; exact hwf.begin_prev_used
    · have : begin_chunk h = m := by simp at hle1; omega
      rw [this, hc']; simp only; rw [← this]; exact hwf.begin_prev_used
  · rw [hee]
    rcases Nat.lt_or_ge (m + H + (h.mem m).curr_size) (end_chunk h) with hx2 | hx2
    · rw [hhigh _ hx2]; exact hwf.end_used
    · have : end_chunk h = m + H + (h.mem m).curr_size := by omega
      rw [this, hn']; simp only; rw [← this]; exact hwf.end_used
  · rw [hbe, hee]; exact hwf.extent

/-! ## `init_heap` -/

theorem init_free_size_eq {H D size heap : Nat} :
    sub_size_t (sub_size_t (heap + size) (heap + D)) (2 * H) % field_mod
      = init_free_size H D size := by
  unfold sub_size_t init_free_size
  simp only [size_t_mod, field_mod]
  omega

theorem init_free_size_of_le {H D size : Nat} (hd : D + 2 * H ≤ size) :
    init_free_size H D size = (size - D - 2 * H) % field_mod := by
  unfold init_free_size
  simp only [field_mod]
  omega

theorem init_free_size_lt {H D size : Nat} : init_free_size H D size < field_mod := by
  unfold init_free_size
  simp only [field_mod]
  omega

/-- The heap after `init_heap` in closed form. -/
theorem init_heap_mem {H D size heap : Nat} {h0 h : Heap} (hH : 0 < H)
    (hr : init_heap H D size heap h0 = Res.ok () h) :
    init_free_size H D size ≠ size_marker ∧
    h.info = { heap := heap, heap_size := size, arena := heap + D,
               arena_size := sub_size_t (heap + size) (heap + D), begin := heap + D,
               end_ := heap + D + H + init_free_size H D size } ∧
    ∀ x, h.mem x =
      if x = heap + D + H + init_free_size H D size then
        ⟨init_free_size H D size, FREE_CHUNK, size_marker, USED_CHUNK⟩
      else if x = heap + D then
        ⟨size_marker, USED_CHUNK, init_free_size H D size, FREE_CHUNK⟩
      else h0.mem x := by
  have hmk : size_marker % field_mod = size_marker := by decide
  unfold init_heap at hr
  simp only [set_prev_size, set_curr_size, set_prev_state, set_curr_state, store_mem,
    store_info, next_chunk, is_end_chunk, chunk_data, if_true, init_free_size_eq, hmk] at hr
  by_cases he : init_free_size H D size = size_marker
  · simp [he] at hr
  · have hb : (init_free_size H D size == size_marker) = false := by simpa using he
    simp only [hb, Bool.false_eq_true, if_false, Res.ok.injEq, true_and] at hr
    subst hr
    refine ⟨he, rfl, ?_⟩
    intro x
    have n1 : heap + D ≠ heap + D + H + init_free_size H D size := by omega
    have hlt : init_free_size H D size % 2147483648 = init_free_size H D size :=
      Nat.mod_eq_of_lt init_free_size_lt
    by_cases h1 : x = heap + D + H + init_free_size H D size
    · subst h1
      simp [store, n1, n1.symm, hlt]
    · by_cases h2 : x = heap + D
      · subst h2
        simp [store, n1, n1.symm, hlt]
      · simp [store, h1, h2]

theorem init_heap_ok {H D size heap : Nat} {h0 : Heap}
    (he : init_free_size H D size ≠ size_marker) :
    ∃ h, init_heap H D size heap h0 = Res.ok () h := by
  have hmk : size_marker % field_mod = size_marker := by decide
  have hb : (init_free_size H D size == size_marker) = false := by simpa using he
  unfold init_heap
  simp only [set_prev_size, set_curr_size, set_prev_state, set_curr_state, store_mem,
    store_info, next_chunk, is_end_chunk, chunk_data, if_true, init_free_size_eq, hmk, hb]
  exact ⟨_, rfl⟩

theorem init_free_size_lt_marker {H D size : Nat}
    (he : init_free_size H D size ≠ size_marker) : init_free_size H D size < size_marker := by
  have := @init_free_size_lt H D size
  rw [size_marker_eq] at *
  simp only [field_mod] at this
  omega

/-- Whenever `init_heap` returns, its heap is well-formed with the single chunk
`begin_chunk ()`. -/
theorem init_heap_wf {H D size heap : Nat} {h0 h : Heap} (hH : 0 < H)
    (hr : init_heap H D size heap h0 = Res.ok () h) :
    WellFormed H h [begin_chunk h] ∧ is_free_chunk (begin_chunk h) h = true ∧
      (h.mem (begin_chunk h)).curr_size = init_free_size H D size := by
  obtain ⟨he, hinfo, hm⟩ := init_heap_mem hH hr
  have hlt := init_free_size_lt_marker he
  have hb : begin_chunk h = heap + D := by simp [begin_chunk, hinfo]
  have hee : end_chunk h = heap + D + H + init_free_size H D size := by
    simp [end_chunk, hinfo]
  have hbm : h.mem (heap + D) = ⟨size_marker, USED_CHUNK, init_free_size H D size, FREE_CHUNK⟩ := by
    rw [hm, if_neg (by omega), if_pos rfl]
  have hem : h.mem (heap + D + H + init_free_size H D size)
      = ⟨init_free_size H D size, FREE_CHUNK, size_marker, USED_CHUNK⟩ := by
    rw [hm, if_pos rfl]
  refine ⟨WellFormed.of_chain hH ?_ ?_ ?_ ?_ ?_ ?_, ?_, ?_⟩
  · rw [hb, hee]
    refine ⟨rfl, ?_, ?_, ?_, ?_⟩
    · rw [hbm]; exact he
    · rw [hbm]; simp only; rw [hem]
    · rw [hbm]; simp only; rw [hem]
    · rw [hbm]; exact rfl
  · rw [hee, hem]
  · rw [hb, hbm]
  · rw [hb, hbm]
  · rw [hee, hem]
  · rw [hb, hee]; omega
  · rw [hb]; simp [is_free_chunk, hbm]
  · rw [hb, hbm]

theorem split_chunk_asserts {H c size r : Nat} {h h1 : Heap}
    (hr : split_chunk H c size h = Res.ok r h1) :
    is_free_chunk c h = true ∧ is_end_chunk c h = false ∧ h1.info = h.info := by
  unfold split_chunk at hr
  by_cases hf : is_free_chunk c h = true
  · by_cases he : is_end_chunk c h = true
    · simp [hf, he, next_chunk] at hr
    · simp only [hf, next_chunk, he, if_true, Bool.false_eq_true, if_false, Res.ok.injEq] at hr
      obtain ⟨_, rfl⟩ := hr
      exact ⟨hf, by simpa using he, rfl⟩
  · simp [hf] at hr

theorem coalesce_chunk_info {H c r : Nat} {h h1 : Heap}
    (hr : coalesce_chunk H c h = Res.ok r h1) : h1.info = h.info := by
  unfold coalesce_chunk at hr
  by_cases hf : is_free_chunk c h = true
  · by_cases hfp : is_free_prev_chunk c h = true
    · by_cases hb : is_begin_chunk c h = true
      · simp [hf, hfp, hb, prev_chunk] at hr
      · by_cases he : is_end_chunk c h = true
        · simp [hf, hfp, hb, he, prev_chunk, next_chunk] at hr
        · simp only [hf, hfp, hb, he, prev_chunk, next_chunk, if_true, Bool.false_eq_true,
            if_false, Res.ok.injEq] at hr
          obtain ⟨_, rfl⟩ := hr
          rfl
    · simp [hf, hfp] at hr
  · simp [hf] at hr

/-- The heap invariant behind every claim on reachable heaps: well-formedness
and the accounting of the descriptor. -/
theorem Reachable.inv {H D : Nat} {h : Heap} (hr : Reachable H D h) :
    ∃ l, WellFormed H h l ∧ begin_chunk h ∈ l ∧
      begin_chunk h + h.info.heap_size = end_chunk h + H + D ∧
      h.info.heap_size < size_t_mod := by
  induction hr with
  | init size heap h0 h hH hd hs hsz hi =>
    obtain ⟨hwf, _, _⟩ := init_heap_wf hH hi
    obtain ⟨_, hinfo, _⟩ := init_heap_mem hH hi
    refine ⟨_, hwf, List.mem_singleton.mpr rfl, ?_, ?_⟩
    · have e1 : init_free_size H D size = size - D - 2 * H := by
        rw [init_free_size_of_le hd]
        exact Nat.mod_eq_of_lt (by rw [size_marker_eq] at hs; simp only [field_mod]; omega)
      simp only [begin_chunk, end_chunk, hinfo, e1]
      omega
    · simp only [hinfo]; exact hsz
  | split h h1 c size r _ hc hs hsp ih =>
    obtain ⟨l, hwf, hbl, hacc, hlt⟩ := ih
    obtain ⟨hf, he, hinfo⟩ := split_chunk_asserts hsp
    obtain ⟨l0, hw0, hc0⟩ := hc
    obtain ⟨rfl, _⟩ := isWalk_unique hw0 hwf.walk
    have hcl : c ∈ l0 := by
      rcases hc0 with hc0 | rfl
      · exact hc0
      · have := hwf.end_marker
        simp [is_end_chunk, this] at he
    obtain ⟨l1, l2, rfl, hwf1⟩ := hwf.split hcl hs hsp
    refine ⟨_, hwf1, ?_, ?_, ?_⟩
    · simp only [begin_chunk, hinfo] at hbl ⊢
      simp only [List.mem_append, List.mem_cons] at hbl ⊢
      tauto
    · simpa [begin_chunk, end_chunk, hinfo] using hacc
    · simpa [hinfo] using hlt
  | coalesce h h1 c r _ hc hco ih =>
    obtain ⟨l, hwf, hbl, hacc, hlt⟩ := ih
    obtain ⟨hf, hfp⟩ := coalesce_chunk_asserts hco
    have hinfo := coalesce_chunk_info hco
    obtain ⟨l0, hw0, hc0⟩ := hc
    obtain ⟨rfl, _⟩ := isWalk_unique hw0 hwf.walk
    have hcl : c ∈ l0 := by
      rcases hc0 with hc0 | rfl
      · exact hc0
      · have := hwf.end_used
        simp [is_free_chunk, this] at hf
    have hne : c ≠ begin_chunk h := by
      intro he
      have h1 := hwf.begin_prev_used
      rw [← he] at h1
      simp [is_free_prev_chunk, h1] at hfp
    obtain ⟨l1, l2, rfl, hwf1⟩ := hwf.coalesce hcl hco
    refine ⟨_, hwf1, ?_, ?_, ?_⟩
    · simp only [begin_chunk, hinfo] at hbl hne ⊢
      simp only [List.mem_append, List.mem_cons] at hbl ⊢
      have := Ne.symm hne
      tauto
    · simpa [begin_chunk, end_chunk, hinfo] using hacc
    · simpa [hinfo] using hlt
  | free h h1 c _ hc hfr ih =>
    obtain ⟨l, hwf, hbl, hacc, hlt⟩ := ih
    obtain ⟨hu, he, hinfo, hm⟩ := free_chunk_mem hwf.head_pos hfr
    obtain ⟨l0, hw0, hc0⟩ := hc
    obtain ⟨rfl, _⟩ := isWalk_unique hw0 hwf.walk
    have hcl : c ∈ l0 := by
      rcases hc0 with hc0 | rfl
      · exact hc0
      · have := hwf.end_marker
        simp [is_end_chunk, this] at he
    refine ⟨_, hwf.toggle hcl hinfo hm, ?_, ?_, ?_⟩
    · simpa [begin_chunk, hinfo] using hbl
    · simpa [begin_chunk, end_chunk, hinfo] using hacc
    · simpa [hinfo] using hlt
  | use h h1 c _ hc hus ih =>
    obtain ⟨l, hwf, hbl, hacc, hlt⟩ := ih
    obtain ⟨hu, he, hinfo, hm⟩ := use_chunk_mem hwf.head_pos hus
    obtain ⟨l0, hw0, hc0⟩ := hc
    obtain ⟨rfl, _⟩ := isWalk_unique hw0 hwf.walk
    have hcl : c ∈ l0 := by
      rcases hc0 with hc0 | rfl
      · exact hc0
      · have := hwf.end_marker
        simp [is_end_chunk, this] at he
    refine ⟨_, hwf.toggle hcl hinfo hm, ?_, ?_, ?_⟩
    · simpa [begin_chunk, hinfo] using hbl
    · simpa [begin_chunk, end_chunk, hinfo] using hacc
    · simpa [hinfo] using hlt

/-! ## Example heaps -/

theorem heap_1000_reachable : Reachable 8 48 heap_1000 :=
  Reachable.init 1000 0 raw_heap heap_1000 (by decide) (by decide) (by decide) (by decide) rfl

theorem heap_split_reachable : Reachable 8 48 heap_split :=
  Reachable.split heap_1000 heap_split 48 200 256 heap_1000_reachable
    ⟨[48], by decide, Or.inl (by decide)⟩ (by decide) rfl

theorem heap_used_reachable : Reachable 8 48 heap_used :=
  Reachable.use heap_split heap_used 48 heap_split_reachable
    ⟨[48, 256], by decide, Or.inl (by decide)⟩ rfl

/-! ## The claims -/

/-- C1, amended: in every heap obtained from `init_heap` (on a range that
holds the descriptor and two headers and whose initial free size is below the
marker) by any finite sequence of returning `split_chunk`, `coalesce_chunk`,
`free_chunk` and `use_chunk` calls on chunks of the heap (a chunk of the walk
from `begin_chunk ()`, or the end sentinel), every split leaving room for a
header, the walk from
`begin_chunk ()` reaches `end_chunk ()` and every chunk `A` on it has a
successor `B = next_chunk (A)` with `B.prev_size = A.curr_size` and
`B.prev_state = A.curr_state`. -/
theorem adjacency_invariant_preserved (H D : Nat) (h : Heap) (hr : Reachable H D h) :
    ∃ l, isWalk H h (begin_chunk h) l (end_chunk h) ∧ ∀ A ∈ l, adjacent_at H h A := by
  obtain ⟨l, hwf, _⟩ := hr.inv
  exact ⟨l, hwf.walk, hwf.adj⟩

/-- Witness of the amended C1 on `heap_used` (init, split at 200 bytes, first
chunk used). -/
theorem adjacency_invariant_preserved_witness :
    Reachable 8 48 heap_used ∧
    ∃ l, isWalk 8 heap_used (begin_chunk heap_used) l (end_chunk heap_used) ∧
      ∀ A ∈ l, adjacent_at 8 heap_used A :=
  ⟨heap_used_reachable, adjacency_invariant_preserved 8 48 heap_used heap_used_reachable⟩

/-- C2, as stated, fails: a range of `63 ≥ 2 * head_size ()` bytes with
`head_size () = 8` and a 48-byte descriptor makes `init_heap` store the marker
in `begin->curr_size` and abort in `next_chunk`; no heap results. -/
theorem init_heap_small_range_aborts :
    2 * 8 ≤ 63 ∧ returned (init_heap 8 48 63 0 raw_heap) = false ∧
      ¬ ∃ h, init_heap 8 48 63 0 raw_heap = Res.ok () h := by
  refine ⟨by decide, rfl, ?_⟩
  rintro ⟨h, hh⟩
  exact (init_heap_mem (by decide) hh).1 (by decide)

/-- C2, amended: on a range that holds the descriptor and two headers and whose
free size `size - D - 2 * H`, cut to 31 bits, is not the marker, `init_heap`
returns; the walk from `begin_chunk ()` to `end_chunk ()` is the single chunk
`begin_chunk ()`, which is FREE; the end sentinel is USED;
`begin->prev_size = end->curr_size = size_marker ()`; and both headers lie
inside the range. -/
theorem init_heap_post (H D size heap : Nat) (h0 : Heap) (hH : 0 < H)
    (hd : D + 2 * H ≤ size) (hm : (size - D - 2 * H) % field_mod ≠ size_marker) :
    ∃ h, init_heap H D size heap h0 = Res.ok () h ∧
      isWalk H h (begin_chunk h) [begin_chunk h] (end_chunk h) ∧
      ([begin_chunk h].filter (fun c => is_free_chunk c h)).length = 1 ∧
      (h.mem (begin_chunk h)).curr_state = FREE_CHUNK ∧
      (h.mem (end_chunk h)).curr_state = USED_CHUNK ∧
      (h.mem (begin_chunk h)).prev_size = size_marker ∧
      (h.mem (end_chunk h)).curr_size = size_marker ∧
      heap + D = begin_chunk h ∧ begin_chunk h + H ≤ end_chunk h ∧
      end_chunk h + H ≤ heap + size := by
  have he : init_free_size H D size ≠ size_marker := by
    rw [init_free_size_of_le hd]; exact hm
  obtain ⟨h, hr⟩ := @init_heap_ok H D size heap h0 he
  obtain ⟨hwf, hf, hcs⟩ := init_heap_wf hH hr
  obtain ⟨_, hinfo, _⟩ := init_heap_mem hH hr
  have hfs : (h.mem (begin_chunk h)).curr_state = FREE_CHUNK := by
    simpa [is_free_chunk] using hf
  have hle : init_free_size H D size ≤ size - D - 2 * H := by
    rw [init_free_size_of_le hd]; exact Nat.mod_le _ _
  refine ⟨h, hr, hwf.walk, ?_, hfs, hwf.end_used, hwf.begin_marker, hwf.end_marker, ?_, ?_, ?_⟩
  · simp [hf]
  · simp [begin_chunk, hinfo]
  · simp only [begin_chunk, end_chunk, hinfo]; omega
  · simp only [end_chunk, hinfo]; omega

/-- Witness of the amended C2 on a range of 1000 bytes. -/
theorem init_heap_post_witness :
    (0 < 8 ∧ 48 + 2 * 8 ≤ 1000 ∧ (1000 - 48 - 2 * 8) % field_mod ≠ size_marker) ∧
    ∃ h, init_heap 8 48 1000 0 raw_heap = Res.ok () h ∧
      isWalk 8 h (begin_chunk h) [begin_chunk h] (end_chunk h) ∧
      ([begin_chunk h].filter (fun c => is_free_chunk c h)).length = 1 ∧
      (h.mem (begin_chunk h)).curr_state = FREE_CHUNK ∧
      (h.mem (end_chunk h)).curr_state = USED_CHUNK ∧
      (h.mem (begin_chunk h)).prev_size = size_marker ∧
      (h.mem (end_chunk h)).curr_size = size_marker ∧
      0 + 48 = begin_chunk h ∧ begin_chunk h + 8 ≤ end_chunk h ∧
      end_chunk h + 8 ≤ 0 + 1000 :=
  ⟨by decide, init_heap_post 8 48 1000 0 raw_heap (by decide) (by decide) (by decide)⟩

/-! ### Post-conditions of the mutators -/

theorem heap_1000_wf : WellFormed 8 heap_1000 [48] :=
  (@init_heap_wf 8 48 1000 0 raw_heap heap_1000 (by decide) rfl).1

/-- C3: in a well-formed heap, for a FREE chunk `c` of the walk (so not the end
sentinel) with old size `s0` and a `size` with `size + head_size () ≤ s0`,
`split_chunk (c, size)` returns the header `r` at `chunk_data (c) + size`;
afterwards `c.curr_size = size`, `c` is FREE, `r.prev_size = size`, `r` is FREE
with `prev_state` FREE, `r.curr_size = s0 - size - head_size ()` (`0` when
`size = s0 - head_size ()`), `next_chunk (r)` is the old successor `n` of `c`
and `n.prev_size = r.curr_size`; the descriptor and every other header field
are unchanged. -/
theorem split_chunk_post (H : Nat) (h : Heap) (l : List Nat) (c size : Nat)
    (hwf : WellFormed H h l) (hc : c ∈ l) (hf : is_free_chunk c h = true)
    (hs : size + H ≤ (h.mem c).curr_size) :
    ∃ h1 n, split_chunk H c size h = Res.ok (chunk_data H c + size) h1 ∧
      next_chunk H c h = Res.ok n h ∧
      (h1.mem c).curr_size = size ∧ (h1.mem c).curr_state = FREE_CHUNK ∧
      (h1.mem (chunk_data H c + size)).prev_size = size ∧
      (h1.mem (chunk_data H c + size)).curr_state = FREE_CHUNK ∧
      (h1.mem (chunk_data H c + size)).prev_state = FREE_CHUNK ∧
      (h1.mem (chunk_data H c + size)).curr_size = (h.mem c).curr_size - size - H ∧
      (size = (h.mem c).curr_size - H → (h1.mem (chunk_data H c + size)).curr_size = 0) ∧
      next_chunk H (chunk_data H c + size) h1 = Res.ok n h1 ∧
      (h1.mem n).prev_size = (h1.mem (chunk_data H c + size)).curr_size ∧
      h1.info = h.info ∧
      (∀ x, x ≠ c → x ≠ chunk_data H c + size → x ≠ n → h1.mem x = h.mem x) ∧
      (h1.mem c).prev_size = (h.mem c).prev_size ∧
      (h1.mem c).prev_state = (h.mem c).prev_state ∧
      (h1.mem n).prev_state = (h.mem n).prev_state ∧
      (h1.mem n).curr_size = (h.mem n).curr_size ∧
      (h1.mem n).curr_state = (h.mem n).curr_state := by
  have hH := hwf.head_pos
  have hb := hwf.bounds hc
  have he := is_end_chunk_false_of_lt hb.2.2
  obtain ⟨h1, hr⟩ := @split_chunk_ok H c size h hf he
  obtain ⟨_, _, hinfo, hm⟩ := split_chunk_mem hH hs hb.2.2 hr
  have hfree : (h.mem c).curr_state = FREE_CHUNK := by simpa [is_free_chunk] using hf
  have hmk := size_marker_eq
  have hc' : h1.mem c = { h.mem c with curr_size := size } := by
    rw [hm c, if_neg (by omega), if_neg (by omega), if_pos rfl]
  have hr' : h1.mem (c + H + size) =
      ⟨size, FREE_CHUNK, (h.mem c).curr_size - size - H, FREE_CHUNK⟩ := by
    rw [hm _, if_pos rfl]
  have hn' : h1.mem (c + H + (h.mem c).curr_size) =
      { h.mem (c + H + (h.mem c).curr_size) with
        prev_size := (h.mem c).curr_size - size - H } := by
    rw [hm _, if_neg (by omega), if_pos rfl]
  have hnx : c + H + size + H + ((h.mem c).curr_size - size - H)
      = c + H + (h.mem c).curr_size := by omega
  have her : is_end_chunk (c + H + size) h1 = false := by
    simp only [is_end_chunk, hr', beq_eq_false_iff_ne]; omega
  refine ⟨h1, c + H + (h.mem c).curr_size, hr, ?_, ?_, ?_, ?_, ?_, ?_, ?_, ?_, ?_, ?_,
    hinfo, ?_, ?_, ?_, ?_, ?_, ?_⟩
  · simp [next_chunk, he, chunk_data]
  · rw [hc']
  · rw [hc']; exact hfree
  · simp only [chunk_data]; rw [hr']
  · simp only [chunk_data]; rw [hr']
  · simp only [chunk_data]; rw [hr']
  · simp only [chunk_data]; rw [hr']
  · intro hsz; simp only [chunk_data]; rw [hr']; simp only; omega
  · simp only [next_chunk, chunk_data, her, Bool.false_eq_true, if_false, hr', hnx]
  · simp only [chunk_data]; rw [hn', hr']
  · intro x h1x h2x h3x
    simp only [chunk_data] at h2x
    rw [hm x, if_neg h2x, if_neg h3x, if_neg h1x]
  · rw [hc']
  · rw [hc']
  · rw [hn']
  · rw [hn']
  · rw [hn']

/-- Witness of C3: splitting the initial chunk of `heap_1000` at 200 bytes. -/
theorem split_chunk_post_witness :
    (WellFormed 8 heap_1000 [48] ∧ 48 ∈ [48] ∧ is_free_chunk 48 heap_1000 = true ∧
      200 + 8 ≤ (heap_1000.mem 48).curr_size) ∧
    ∃ h1 n, split_chunk 8 48 200 heap_1000 = Res.ok (chunk_data 8 48 + 200) h1 ∧
      next_chunk 8 48 heap_1000 = Res.ok n heap_1000 ∧
      (h1.mem 48).curr_size = 200 ∧
      (h1.mem (chunk_data 8 48 + 200)).curr_size = (heap_1000.mem 48).curr_size - 200 - 8 ∧
      next_chunk 8 (chunk_data 8 48 + 200) h1 = Res.ok n h1 := by
  refine ⟨⟨heap_1000_wf, by decide, by decide, by decide⟩, ?_⟩
  obtain ⟨h1, n, a1, a2, a3, _, _, _, _, a4, _, a5, _⟩ :=
    split_chunk_post 8 heap_1000 [48] 48 200 heap_1000_wf (by decide) (by decide) (by decide)
  exact ⟨h1, n, a1, a2, a3, a4, a5⟩

theorem coalesce_chunk_ok {H c : Nat} {h : Heap}
    (hf : is_free_chunk c h = true) (hfp : is_free_prev_chunk c h = true)
    (hb : is_begin_chunk c h = false) (he : is_end_chunk c h = false) :
    ∃ h1, coalesce_chunk H c h = Res.ok (data_chunk H (prev_chunk_data c h)) h1 := by
  simp [coalesce_chunk, hf, hfp, prev_chunk, next_chunk, hb, he]

theorem heap_split_wf : WellFormed 8 heap_split [48, 256] := by
  obtain ⟨l1, l2, hl, hwf⟩ := @WellFormed.split 8 48 200 256 heap_1000 heap_split [48]
    heap_1000_wf (by decide) (by decide) rfl
  have h1 : l1 = [] ∧ l2 = [] := by
    cases l1 with
    | nil => simp at hl; exact ⟨rfl, hl⟩
    | cons a l1 => cases l1 <;> simp at hl
  obtain ⟨rfl, rfl⟩ := h1
  exact hwf

/-- C4: in a well-formed heap, for a FREE chunk `c` of the walk (so not the end
sentinel) that is not the begin chunk and whose predecessor
`p = prev_chunk (c)` is FREE, `coalesce_chunk (c)` returns `p`; afterwards
`p.curr_size` is the old `p.curr_size` plus `head_size () + c.curr_size`, the
old successor `n` of `c` is `next_chunk (p)` with `n.prev_size = p.curr_size`,
`p` is still FREE, and the descriptor and every other header field are
unchanged. -/
theorem coalesce_chunk_post (H : Nat) (h : Heap) (l : List Nat) (c p : Nat)
    (hwf : WellFormed H h l) (hc : c ∈ l) (hf : is_free_chunk c h = true)
    (hp : prev_chunk H c h = Res.ok p h) (hpf : is_free_chunk p h = true) :
    ∃ h1 n, coalesce_chunk H c h = Res.ok p h1 ∧
      next_chunk H c h = Res.ok n h ∧
      (h1.mem p).curr_size = (h.mem p).curr_size + (H + (h.mem c).curr_size) ∧
      next_chunk H p h1 = Res.ok n h1 ∧
      (h1.mem n).prev_size = (h1.mem p).curr_size ∧
      (h1.mem p).curr_state = FREE_CHUNK ∧
      h1.info = h.info ∧
      (∀ x, x ≠ p → x ≠ n → h1.mem x = h.mem x) ∧
      (h1.mem p).prev_size = (h.mem p).prev_size ∧
      (h1.mem p).prev_state = (h.mem p).prev_state ∧
      (h1.mem n).prev_state = (h.mem n).prev_state ∧
      (h1.mem n).curr_size = (h.mem n).curr_size ∧
      (h1.mem n).curr_state = (h.mem n).curr_state := by
  have hH := hwf.head_pos
  have hb := hwf.bounds hc
  have he := is_end_chunk_false_of_lt hb.2.2
  have hmk := size_marker_eq
  -- `c` is not the begin chunk, since `prev_chunk` returned
  have hbg : is_begin_chunk c h = false := by
    by_cases hx : is_begin_chunk c h = true
    · simp [prev_chunk, hx] at hp
    · simpa using hx
  have hpe : p = c - (h.mem c).prev_size - H := by
    simp only [prev_chunk, hbg, Bool.false_eq_true, if_false, Res.ok.injEq, and_true,
      data_chunk, prev_chunk_data] at hp
    exact hp.symm
  have hne : c ≠ begin_chunk h := by
    intro hx
    have := hwf.begin_marker
    rw [← hx] at this
    simp [is_begin_chunk, this] at hbg
  obtain ⟨q, hq, hqc⟩ := hwf.pred (Or.inl hc) hne
  obtain ⟨_, hq2, hq3⟩ := adjacent_at_iff.mp (hwf.adj q hq)
  rw [← hqc] at hq2 hq3
  have hpq : p = q := by omega
  subst hpq
  have hpfree : (h.mem p).curr_state = FREE_CHUNK := by simpa [is_free_chunk] using hpf
  have hfp : is_free_prev_chunk c h = true := by
    simp [is_free_prev_chunk, hq3, hpfree]
  have hbq := hwf.bounds hq
  have hx := hwf.extent
  obtain ⟨h1, hr⟩ := @coalesce_chunk_ok H c h hf hfp hbg he
  have hdp : data_chunk H (prev_chunk_data c h) = p := by
    simp only [data_chunk, prev_chunk_data]; omega
  rw [hdp] at hr
  obtain ⟨_, _, _, hinfo, hm⟩ := @coalesce_chunk_mem H c p p h h1 hH (by omega)
    (by rw [hq2]; omega) (by omega) hr
  have hp' : h1.mem p =
      { h.mem p with curr_size := (h.mem c).prev_size + H + (h.mem c).curr_size } := by
    rw [hm p, if_pos rfl]
  have hn' : h1.mem (c + H + (h.mem c).curr_size) =
      { h.mem (c + H + (h.mem c).curr_size) with
        prev_size := (h.mem c).prev_size + H + (h.mem c).curr_size } := by
    rw [hm _, if_neg (by omega), if_pos rfl]
  have hnx : p + H + ((h.mem c).prev_size + H + (h.mem c).curr_size)
      = c + H + (h.mem c).curr_size := by omega
  have hep : is_end_chunk p h1 = false := by
    simp only [is_end_chunk, hp', beq_eq_false_iff_ne]; omega
  refine ⟨h1, c + H + (h.mem c).curr_size, hr, ?_, ?_, ?_, ?_, ?_, hinfo, ?_, ?_, ?_, ?_,
    ?_, ?_⟩
  · simp [next_chunk, he, chunk_data]
  · rw [hp']; simp only; omega
  · simp only [next_chunk, chunk_data, hep, Bool.false_eq_true, if_false, hp', hnx]
  · rw [hn', hp']
  · rw [hp']; exact hpfree
  · intro x h1x h2x
    rw [hm x, if_neg h1x, if_neg h2x]
  · rw [hp']
  · rw [hp']
  · rw [hn']
  · rw [hn']
  · rw [hn']

/-- Witness of C4: coalescing the remainder at 256 of `heap_split`. -/
theorem coalesce_chunk_post_witness :
    (WellFormed 8 heap_split [48, 256] ∧ 256 ∈ [48, 256] ∧
      is_free_chunk 256 heap_split = true ∧ prev_chunk 8 256 heap_split = Res.ok 48 heap_split ∧
      is_free_chunk 48 heap_split = true) ∧
    ∃ h1 n, coalesce_chunk 8 256 heap_split = Res.ok 48 h1 ∧
      next_chunk 8 256 heap_split = Res.ok n heap_split ∧
      (h1.mem 48).curr_size = (heap_split.mem 48).curr_size + (8 + (heap_split.mem 256).curr_size) ∧
      next_chunk 8 48 h1 = Res.ok n h1 ∧
      (h1.mem n).prev_size = (h1.mem 48).curr_size := by
  refine ⟨⟨heap_split_wf, by decide, by decide, rfl, by decide⟩, ?_⟩
  obtain ⟨h1, n, a1, a2, a3, a4, a5, _⟩ :=
    coalesce_chunk_post 8 heap_split [48, 256] 256 48 heap_split_wf (by decide) (by decide)
      rfl (by decide)
  exact ⟨h1, n, a1, a2, a3, a4, a5⟩

/-! ### Round trips -/

theorem Heap.eq_of {h1 h2 : Heap} (hi : h1.info = h2.info) (hm : ∀ x, h1.mem x = h2.mem x) :
    h1 = h2 := by
  cases h1; cases h2
  simp only [Heap.mk.injEq] at *
  exact ⟨hi, funext hm⟩

theorem chunk.set_prev_size_self (v : chunk) (s : Nat) (hv : v.prev_size = s) :
    ({ v with prev_size := s } : chunk) = v := by
  cases v; simp only [chunk.mk.injEq] at hv ⊢; simp [hv]

theorem chunk.set_curr_size_self (v : chunk) (s : Nat) (hv : v.curr_size = s) :
    ({ v with curr_size := s } : chunk) = v := by
  cases v; simp only [chunk.mk.injEq] at hv ⊢; simp [hv]

theorem chunk.set_prev_state_self (v : chunk) (s : Bool) (hv : v.prev_state = s) :
    ({ v with prev_state := s } : chunk) = v := by
  cases v; simp only [chunk.mk.injEq] at hv ⊢; simp [hv]

theorem chunk.set_curr_state_self (v : chunk) (s : Bool) (hv : v.curr_state = s) :
    ({ v with curr_state := s } : chunk) = v := by
  cases v; simp only [chunk.mk.injEq] at hv ⊢; simp [hv]

theorem isChain_congr {H : Nat} {h h' : Heap} : ∀ {l : List Nat} {a e : Nat},
    isChain H h a l e → (∀ x ∈ l, h'.mem x = h.mem x) → h'.mem e = h.mem e →
    isChain H h' a l e := by
  intro l
  induction l with
  | nil => intro a e hc _ _; exact hc
  | cons c l ih =>
    intro a e hc hl he
    obtain ⟨rfl, h1, h2, h3, hr⟩ := hc
    have ha := hl a (List.mem_cons_self _ _)
    have hn : h'.mem (a + H + (h.mem a).curr_size) = h.mem (a + H + (h.mem a).curr_size) := by
      cases l with
      | nil => rw [hr]; exact he
      | cons b l => rw [hr.1]; exact hl b (List.mem_cons_of_mem _ (List.mem_cons_self _ _))
    refine ⟨rfl, ?_, ?_, ?_, ?_⟩
    · rw [ha]; exact h1
    · rw [ha, hn]; exact h2
    · rw [ha, hn]; exact h3
    · rw [ha]; exact ih hr (fun x hx => hl x (List.mem_cons_of_mem _ hx)) he

/-- Well-formedness only depends on the descriptor and the headers of the walk. -/
theorem WellFormed.congr {H : Nat} {h h' : Heap} {l : List Nat} (hwf : WellFormed H h l)
    (hinfo : h'.info = h.info) (hl : ∀ x ∈ l, h'.mem x = h.mem x)
    (he : h'.mem (end_chunk h) = h.mem (end_chunk h)) : WellFormed H h' l := by
  have hbe : begin_chunk h' = begin_chunk h := by simp [begin_chunk, hinfo]
  have hee : end_chunk h' = end_chunk h := by simp [end_chunk, hinfo]
  have hb : h'.mem (begin_chunk h) = h.mem (begin_chunk h) := by
    have hch := hwf.chain
    cases l with
    | nil => rw [hch]; exact he
    | cons b l => rw [hch.1]; exact hl b (List.mem_cons_self _ _)
  refine WellFormed.of_chain hwf.head_pos ?_ ?_ ?_ ?_ ?_ ?_
  · rw [hbe, hee]; exact isChain_congr hwf.chain hl he
  · rw [hee, he]; exact hwf.end_marker
  · rw [hbe, hb]; exact hwf.begin_marker
  · rw [hbe, hb]; exact hwf.begin_prev_used
  · rw [hee, he]; exact hwf.end_used
  · rw [hbe, hee]; exact hwf.extent

theorem isChain_apart {H : Nat} {h : Heap} : ∀ {l : List Nat} {a e c x : Nat},
    isChain H h a l e → c ∈ l → x ∈ l →
    x = c ∨ x + H + (h.mem x).curr_size ≤ c ∨ c + H + (h.mem c).curr_size ≤ x := by
  intro l
  induction l with
  | nil => intro a e c x _ hc; simp at hc
  | cons b l ih =>
    intro a e c x hch hc hx
    obtain ⟨rfl, _, _, _, hr⟩ := hch
    rcases List.mem_cons.mp hc with hc1 | hc1
    · rcases List.mem_cons.mp hx with hx1 | hx1
      · exact Or.inl (hx1.trans hc1.symm)
      · rw [hc1]; exact Or.inr (Or.inr (isChain_mem hr hx1).1)
    · rcases List.mem_cons.mp hx with hx1 | hx1
      · rw [hx1]; exact Or.inr (Or.inl (isChain_mem hr hc1).1)
      · exact ih hr hc1 hx1

/-- C5: in a well-formed heap, for a FREE chunk `c` of the walk and a `size`
with `size + head_size () ≤ c.curr_size`, `split_chunk (c, size)` returns a
remainder `r` and `coalesce_chunk (r)` then returns `c`; the resulting heap is
well-formed with the chunk sequence it had before the split, `c.curr_size` and
`c.curr_state` and the `prev_size` and `prev_state` of the chunk after `c` have
their original values, and every header other than the dead one at `r` is as
before. -/
theorem split_coalesce_roundtrip (H : Nat) (h : Heap) (l : List Nat) (c size : Nat)
    (hwf : WellFormed H h l) (hc : c ∈ l) (hf : is_free_chunk c h = true)
    (hs : size + H ≤ (h.mem c).curr_size) :
    ∃ r h1 h2 n, split_chunk H c size h = Res.ok r h1 ∧
      coalesce_chunk H r h1 = Res.ok c h2 ∧
      next_chunk H c h = Res.ok n h ∧
      WellFormed H h2 l ∧
      (h2.mem c).curr_size = (h.mem c).curr_size ∧
      (h2.mem c).curr_state = (h.mem c).curr_state ∧
      next_chunk H c h2 = Res.ok n h2 ∧
      (h2.mem n).prev_size = (h.mem n).prev_size ∧
      (h2.mem n).prev_state = (h.mem n).prev_state ∧
      h2.info = h.info ∧
      (∀ x, x ≠ r → h2.mem x = h.mem x) := by
  have hH := hwf.head_pos
  have hb := hwf.bounds hc
  have he := is_end_chunk_false_of_lt hb.2.2
  have hmk := size_marker_eq
  obtain ⟨_, hq2, hq3⟩ := adjacent_at_iff.mp (hwf.adj c hc)
  obtain ⟨h1, hr⟩ := @split_chunk_ok H c size h hf he
  obtain ⟨_, _, hinfo1, hm1⟩ := split_chunk_mem hH hs hb.2.2 hr
  simp only [chunk_data] at hr
  have hc1 : h1.mem c = { h.mem c with curr_size := size } := by
    rw [hm1 c, if_neg (by omega), if_neg (by omega), if_pos rfl]
  have hr1 : h1.mem (c + H + size) =
      ⟨size, FREE_CHUNK, (h.mem c).curr_size - size - H, FREE_CHUNK⟩ := by
    rw [hm1 _, if_pos rfl]
  have hn1 : h1.mem (c + H + (h.mem c).curr_size) =
      { h.mem (c + H + (h.mem c).curr_size) with
        prev_size := (h.mem c).curr_size - size - H } := by
    rw [hm1 _, if_neg (by omega), if_pos rfl]
  -- the coalesce of the remainder
  have f1 : is_free_chunk (c + H + size) h1 = true := by simp [is_free_chunk, hr1]
  have f2 : is_free_prev_chunk (c + H + size) h1 = true := by simp [is_free_prev_chunk, hr1]
  have f3 : is_begin_chunk (c + H + size) h1 = false := by
    simp only [is_begin_chunk, hr1, beq_eq_false_iff_ne]; omega
  have f4 : is_end_chunk (c + H + size) h1 = false := by
    simp only [is_end_chunk, hr1, beq_eq_false_iff_ne]; omega
  obtain ⟨h2, hr2⟩ := @coalesce_chunk_ok H (c + H + size) h1 f1 f2 f3 f4
  have hdp : data_chunk H (prev_chunk_data (c + H + size) h1) = c := by
    simp only [data_chunk, prev_chunk_data, hr1]; omega
  rw [hdp] at hr2
  obtain ⟨_, _, _, hinfo2, hm2⟩ := @coalesce_chunk_mem H (c + H + size) c c h1 h2 hH
    (by rw [hr1]) (by rw [hr1]; simp only; omega) (by rw [hr1]; simp only; omega) hr2
  simp only [hr1] at hm2
  have hsum : size + H + ((h.mem c).curr_size - size - H) = (h.mem c).curr_size := by omega
  have hnx : c + H + size + H + ((h.mem c).curr_size - size - H)
      = c + H + (h.mem c).curr_size := by omega
  rw [hsum, hnx] at hm2
  have hc2 : h2.mem c = h.mem c := by
    rw [hm2 c, if_pos rfl, hc1]
  have hn2 : h2.mem (c + H + (h.mem c).curr_size) = h.mem (c + H + (h.mem c).curr_size) := by
    rw [hm2 _, if_neg (by omega), if_pos rfl, hn1]
    exact chunk.set_prev_size_self _ _ hq2
  have hrest : ∀ x, x ≠ c + H + size → h2.mem x = h.mem x := by
    intro x hx
    by_cases h1x : x = c
    · rw [h1x]; exact hc2
    · by_cases h2x : x = c + H + (h.mem c).curr_size
      · rw [h2x]; exact hn2
      · rw [hm2 x, if_neg h1x, if_neg h2x, hm1 x, if_neg hx, if_neg h2x, if_neg h1x]
  have hinfo : h2.info = h.info := by rw [hinfo2, hinfo1]
  have hrl : ∀ x ∈ l, x ≠ c + H + size := by
    intro x hx hxe
    rcases isChain_apart hwf.chain hc hx with h3 | h3 | h3 <;> omega
  refine ⟨c + H + size, h1, h2, c + H + (h.mem c).curr_size, hr, hr2, ?_, ?_, ?_, ?_, ?_,
    ?_, ?_, hinfo, hrest⟩
  · simp [next_chunk, he, chunk_data]
  · exact hwf.congr hinfo (fun x hx => hrest x (hrl x hx)) (hrest _ (by omega))
  · rw [hc2]
  · rw [hc2]
  · have : is_end_chunk c h2 = false := by
      simp only [is_end_chunk, hc2]; exact he
    simp [next_chunk, this, chunk_data, hc2]
  · rw [hn2]
  · rw [hn2]

/-- Witness of C5 on `heap_1000`. -/
theorem split_coalesce_roundtrip_witness :
    (WellFormed 8 heap_1000 [48] ∧ 48 ∈ [48] ∧ is_free_chunk 48 heap_1000 = true ∧
      200 + 8 ≤ (heap_1000.mem 48).curr_size) ∧
    ∃ r h1 h2, split_chunk 8 48 200 heap_1000 = Res.ok r h1 ∧
      coalesce_chunk 8 r h1 = Res.ok 48 h2 ∧
      WellFormed 8 h2 [48] ∧
      (h2.mem 48).curr_size = (heap_1000.mem 48).curr_size ∧
      ∀ x, x ≠ r → h2.mem x = heap_1000.mem x := by
  refine ⟨⟨heap_1000_wf, by decide, by decide, by decide⟩, ?_⟩
  obtain ⟨r, h1, h2, n, a1, a2, _, a3, a4, _, _, _, _, _, a5⟩ :=
    split_coalesce_roundtrip 8 heap_1000 [48] 48 200 heap_1000_wf (by decide) (by decide)
      (by decide)
  exact ⟨r, h1, h2, a1, a2, a3, a4, a5⟩

theorem use_chunk_ok {H c : Nat} {h : Heap}
    (hf : is_free_chunk c h = true) (he : is_end_chunk c h = false) :
    ∃ h1, use_chunk H c h = Res.ok () h1 := by
  simp only [use_chunk_returns_iff]
  simp [use_chunk_call_first, hf, next_chunk, he]

theorem free_chunk_ok {H c : Nat} {h : Heap}
    (hu : is_used_chunk c h = true) (he : is_end_chunk c h = false) :
    ∃ h1, free_chunk H c h = Res.ok () h1 := by
  simp [free_chunk, hu, next_chunk, he]

/-- C6: in a well-formed heap, for a FREE chunk `c` of the walk with successor
`n`, `use_chunk (c)` returns and `free_chunk (c)` then returns with the heap
exactly as it was before the two calls.  The first toggle sets `c.curr_state`
and `n.prev_state` to USED, the second sets both back to FREE, and neither
changes any other state field nor any `curr_size` or `prev_size`. -/
theorem use_free_roundtrip (H : Nat) (h : Heap) (l : List Nat) (c : Nat)
    (hwf : WellFormed H h l) (hc : c ∈ l) (hf : is_free_chunk c h = true) :
    ∃ h1 n, next_chunk H c h = Res.ok n h ∧
      use_chunk H c h = Res.ok () h1 ∧
      free_chunk H c h1 = Res.ok () h ∧
      (h1.mem c).curr_state = USED_CHUNK ∧ (h1.mem n).prev_state = USED_CHUNK ∧
      (h.mem c).curr_state = FREE_CHUNK ∧ (h.mem n).prev_state = FREE_CHUNK ∧
      h1.info = h.info ∧
      (∀ x, (h1.mem x).curr_size = (h.mem x).curr_size ∧
        (h1.mem x).prev_size = (h.mem x).prev_size) ∧
      (∀ x, x ≠ c → (h1.mem x).curr_state = (h.mem x).curr_state) ∧
      (∀ x, x ≠ n → (h1.mem x).prev_state = (h.mem x).prev_state) := by
  have hH := hwf.head_pos
  have hb := hwf.bounds hc
  have he := is_end_chunk_false_of_lt hb.2.2
  obtain ⟨_, _, hq3⟩ := adjacent_at_iff.mp (hwf.adj c hc)
  have hfree : (h.mem c).curr_state = FREE_CHUNK := by simpa [is_free_chunk] using hf
  obtain ⟨h1, hr1⟩ := @use_chunk_ok H c h hf he
  obtain ⟨_, _, hinfo1, hm1⟩ := use_chunk_mem hH hr1
  have hc1 : h1.mem c = { h.mem c with curr_state := USED_CHUNK } := by
    rw [hm1 c, if_neg (by omega), if_pos rfl]
  have hn1 : h1.mem (c + H + (h.mem c).curr_size) =
      { h.mem (c + H + (h.mem c).curr_size) with prev_state := USED_CHUNK } := by
    rw [hm1 _, if_pos rfl]
  have u1 : is_used_chunk c h1 = true := by simp [is_used_chunk, hc1]
  have e1 : is_end_chunk c h1 = false := by
    simp only [is_end_chunk, hc1]; exact he
  obtain ⟨h2, hr2⟩ := @free_chunk_ok H c h1 u1 e1
  obtain ⟨_, _, hinfo2, hm2⟩ := free_chunk_mem hH hr2
  have hcs : (h1.mem c).curr_size = (h.mem c).curr_size := by rw [hc1]
  rw [hcs] at hm2
  have heq : h2 = h := by
    refine Heap.eq_of (by rw [hinfo2, hinfo1]) ?_
    intro x
    by_cases h1x : x = c + H + (h.mem c).curr_size
    · rw [hm2 x, if_pos h1x, h1x, hn1]
      exact chunk.set_prev_state_self _ _ (by rw [hq3, hfree])
    · by_cases h2x : x = c
      · rw [hm2 x, if_neg h1x, if_pos h2x, h2x, hc1]
        exact chunk.set_curr_state_self _ _ hfree
      · rw [hm2 x, if_neg h1x, if_neg h2x, hm1 x, if_neg h1x, if_neg h2x]
  rw [heq] at hr2
  refine ⟨h1, c + H + (h.mem c).curr_size, ?_, hr1, hr2, ?_, ?_, hfree, ?_, hinfo1, ?_, ?_, ?_⟩
  · simp [next_chunk, he, chunk_data]
  · rw [hc1]
  · rw [hn1]
  · rw [hq3, hfree]
  · intro x
    rw [hm1 x]
    by_cases h1x : x = c + H + (h.mem c).curr_size
    · rw [if_pos h1x]; exact ⟨rfl, rfl⟩
    · by_cases h2x : x = c
      · rw [if_neg h1x, if_pos h2x]; exact ⟨rfl, rfl⟩
      · rw [if_neg h1x, if_neg h2x]; exact ⟨rfl, rfl⟩
  · intro x hx
    rw [hm1 x]
    by_cases h1x : x = c + H + (h.mem c).curr_size
    · rw [if_pos h1x]
    · rw [if_neg h1x, if_neg hx]
  · intro x hx
    rw [hm1 x, if_neg hx]
    by_cases h2x : x = c
    · rw [if_pos h2x]
    · rw [if_neg h2x]

/-- Witness of C6 on the first chunk of `heap_split`. -/
theorem use_free_roundtrip_witness :
    (WellFormed 8 heap_split [48, 256] ∧ 48 ∈ [48, 256] ∧
      is_free_chunk 48 heap_split = true) ∧
    ∃ h1, use_chunk 8 48 heap_split = Res.ok () h1 ∧
      free_chunk 8 48 h1 = Res.ok () heap_split := by
  refine ⟨⟨heap_split_wf, by decide, by decide⟩, ?_⟩
  obtain ⟨h1, n, _, a1, a2, _⟩ :=
    use_free_roundtrip 8 heap_split [48, 256] 48 heap_split_wf (by decide) (by decide)
  exact ⟨h1, a1, a2⟩

/-! ### Navigation -/

/-- C7: in a heap whose walk satisfies the adjacency invariant, for every chunk
`c` of the walk (so not the end sentinel) `next_chunk (c)` returns some `n` and
`prev_chunk (n)` returns `c`; and for every chunk `c` of the walk or end
sentinel `c` other than `begin_chunk ()`, `prev_chunk (c)` returns some `p` and
`next_chunk (p)` returns `c`. -/
theorem navigation_inverse (H : Nat) (h : Heap) (l : List Nat) (c : Nat)
    (hw : isWalk H h (begin_chunk h) l (end_chunk h))
    (hadj : ∀ A ∈ l, adjacent_at H h A) :
    (c ∈ l → ∃ n, next_chunk H c h = Res.ok n h ∧ prev_chunk H n h = Res.ok c h) ∧
    ((c ∈ l ∨ c = end_chunk h) → c ≠ begin_chunk h →
      ∃ p, prev_chunk H c h = Res.ok p h ∧ next_chunk H p h = Res.ok c h) := by
  have key : ∀ p ∈ l, next_chunk H p h = Res.ok (p + H + (h.mem p).curr_size) h ∧
      prev_chunk H (p + H + (h.mem p).curr_size) h = Res.ok p h := by
    intro p hp
    obtain ⟨q1, q2, _⟩ := adjacent_at_iff.mp (hadj p hp)
    have he : is_end_chunk p h = false := is_end_chunk_false_iff.mpr q1
    have hb : is_begin_chunk (p + H + (h.mem p).curr_size) h = false := by
      simp only [is_begin_chunk, q2, beq_eq_false_iff_ne]; exact q1
    refine ⟨by simp [next_chunk, he, chunk_data], ?_⟩
    simp only [prev_chunk, hb, Bool.false_eq_true, if_false, data_chunk, prev_chunk_data, q2,
      Res.ok.injEq, and_true]
    omega
  constructor
  · intro hc
    exact ⟨_, key c hc⟩
  · intro hc hne
    have hch := isChain_of_walk hw hadj
    have hp : ∃ p ∈ l, c = p + H + (h.mem p).curr_size := by
      rcases hc with hc | hc
      · obtain ⟨l1, p, l2, hl⟩ := isChain_pred hch hc hne
        rw [hl] at hch ⊢
        obtain ⟨m, _, hc2⟩ := isChain_append.mp hch
        obtain ⟨hmp, _, _, _, hc3⟩ := hc2
        exact ⟨p, by simp, hc3.1.symm⟩
      · rw [hc]
        refine isChain_last hch ?_
        rw [← hc]; exact hne
    obtain ⟨p, hpl, hpc⟩ := hp
    rw [hpc]
    exact ⟨p, (key p hpl).2, (key p hpl).1⟩

/-- Witness of C7 on the second chunk of `heap_split`. -/
theorem navigation_inverse_witness :
    (isWalk 8 heap_split (begin_chunk heap_split) [48, 256] (end_chunk heap_split) ∧
      ∀ A ∈ [48, 256], adjacent_at 8 heap_split A) ∧
    ((256 ∈ [48, 256] → ∃ n, next_chunk 8 256 heap_split = Res.ok n heap_split ∧
        prev_chunk 8 n heap_split = Res.ok 256 heap_split) ∧
      ((256 ∈ [48, 256] ∨ 256 = end_chunk heap_split) → 256 ≠ begin_chunk heap_split →
        ∃ p, prev_chunk 8 256 heap_split = Res.ok p heap_split ∧
          next_chunk 8 p heap_split = Res.ok 256 heap_split)) :=
  ⟨⟨heap_split_wf.walk, heap_split_wf.adj⟩,
    navigation_inverse 8 heap_split [48, 256] 256 heap_split_wf.walk heap_split_wf.adj⟩

/-! ## The statistics pass -/

theorem walk_largest_le_free (h : Heap) (l : List Nat) :
    walk_largest h l ≤ walk_free_size h l := by
  induction l with
  | nil => simp [walk_largest, walk_free_size]
  | cons c l ih =>
    unfold walk_largest walk_free_size
    by_cases hf : is_free_chunk c h = true
    · simp only [hf, if_true]; omega
    · simp only [hf, Bool.false_eq_true, if_false]; omega

theorem walk_free_le_total (h : Heap) (l : List Nat) :
    walk_free_size h l ≤ walk_total_size h l := by
  induction l with
  | nil => simp [walk_total_size, walk_free_size]
  | cons c l ih =>
    unfold walk_total_size walk_free_size
    by_cases hf : is_free_chunk c h = true
    · simp only [hf, if_true]; omega
    · simp only [hf, Bool.false_eq_true, if_false]; omega

theorem isChain_total {H : Nat} {h : Heap} : ∀ {l : List Nat} {a e : Nat},
    isChain H h a l e → a + l.length * H + walk_total_size h l = e := by
  intro l
  induction l with
  | nil => intro a e hc; simp only [isChain] at hc; simp [walk_total_size, hc]
  | cons c l ih =>
    intro a e hc
    obtain ⟨rfl, _, _, _, hr⟩ := hc
    have := ih hr
    simp only [List.length_cons, Nat.add_mul, Nat.one_mul, walk_total_size]
    omega

/-- The loop of `alloc_stats` along a walk, when no accumulator wraps around. -/
theorem stats_loop_walk {H : Nat} {h : Heap} : ∀ {l : List Nat} {a e : Nat}
    (fuel m f g : Nat), isWalk H h a l e → l.length < fuel →
    walk_total_size h l ≤ m → m < size_t_mod → f + walk_free_size h l < size_t_mod →
    stats_loop H h fuel a m f g =
      some (Res.ok (m - walk_total_size h l, f + walk_free_size h l,
        max g (walk_largest h l)) h) := by
  intro l
  induction l with
  | nil =>
    intro a e fuel m f g hw hfuel _ _ _
    obtain ⟨rfl, he⟩ := hw
    cases fuel with
    | zero => simp at hfuel
    | succ k => simp [stats_loop, he, walk_total_size, walk_free_size, walk_largest]
  | cons c l ih =>
    intro a e fuel m f g hw hfuel hm hlt hf
    obtain ⟨rfl, he, hr⟩ := hw
    cases fuel with
    | zero => simp at hfuel
    | succ k =>
      simp only [walk_total_size, walk_free_size, walk_largest] at hm hf ⊢
      have hsub : sub_size_t m (h.mem a).curr_size = m - (h.mem a).curr_size :=
        sub_size_t_eq (by omega) (by omega)
      simp only [stats_loop, he, Bool.false_eq_true, if_false, next_chunk, hsub]
      by_cases hfr : is_free_chunk a h = true
      · simp only [hfr, if_true] at hf ⊢
        have hadd : add_size_t f (h.mem a).curr_size = f + (h.mem a).curr_size := by
          unfold add_size_t; exact Nat.mod_eq_of_lt (by omega)
        rw [hadd, ih k _ _ _ hr (by simpa using hfuel) (by omega) (by omega) (by omega)]
        congr 3
        · omega
        · congr 1
          · omega
          · by_cases hgt : (h.mem a).curr_size > g
            · simp only [hgt, if_true]; omega
            · simp only [hgt, if_false]; omega
      · simp only [hfr, Bool.false_eq_true, if_false] at hf ⊢
        rw [ih k _ _ _ hr (by simpa using hfuel) (by omega) (by omega) (by omega)]
        congr 3
        · omega
        · congr 1
          omega

/-- The result of `alloc_stats` on a heap whose walk is `l`, given enough fuel
and a `meta_size` that does not wrap around. -/
theorem alloc_stats_walk {H : Nat} {h : Heap} {l : List Nat} (fuel : Nat)
    (hw : isWalk H h (begin_chunk h) l (end_chunk h)) (hfuel : l.length < fuel)
    (ht : walk_total_size h l ≤ h.info.heap_size) (hlt : h.info.heap_size < size_t_mod) :
    stats_loop H h fuel (begin_chunk h) h.info.heap_size 0 0 =
      some (Res.ok (h.info.heap_size - walk_total_size h l, walk_free_size h l,
        walk_largest h l) h) ∧
    alloc_stats H fuel h =
      some (Res.ok (stats_of h.info.heap_size (h.info.heap_size - walk_total_size h l)
        (walk_free_size h l) (walk_largest h l)) h) := by
  have hfree := walk_free_le_total h l
  have hloop := stats_loop_walk fuel h.info.heap_size 0 0 hw hfuel ht hlt (by omega)
  simp only [Nat.zero_add, Nat.zero_max] at hloop
  refine ⟨hloop, ?_⟩
  unfold alloc_stats
  rw [hloop]

theorem stats_of_bounds (heap_size total free largest : Nat) (h1 : largest ≤ free) :
    0 ≤ (stats_of heap_size (heap_size - total) free largest).rel_ext_frag ∧
    (stats_of heap_size (heap_size - total) free largest).rel_ext_frag ≤ 1 ∧
    0 ≤ (stats_of heap_size (heap_size - total) free largest).rel_metadata ∧
    (stats_of heap_size (heap_size - total) free largest).rel_metadata ≤ 1 := by
  unfold stats_of
  simp only
  refine ⟨?_, ?_, ?_, ?_⟩
  · split_ifs
    · positivity
    · exact zero_le_one
  · split_ifs with hf
    · have hpos : (0 : ℚ) < (free : ℚ) := by exact_mod_cast Nat.pos_of_ne_zero hf
      rw [div_le_one hpos]
      exact_mod_cast h1
    · exact le_refl _
  · positivity
  · apply div_le_one_of_le₀
    · exact_mod_cast Nat.sub_le _ _
    · positivity

/-- C9 (the code departs from its documentation): on `heap_split`, whose FREE
chunks have sizes 200 and 728, `alloc_stats` returns
`rel_ext_frag = largest / free_size = 728 / 928`, not the documented
`1 - largest / free_size`. -/
theorem alloc_stats_frag_heap_split :
    walk_free_size heap_split [48, 256] = 928 ∧ walk_largest heap_split [48, 256] = 728 ∧
    ∃ st, alloc_stats 8 3 heap_split = some (Res.ok st heap_split) ∧
      st.rel_ext_frag = 728 / 928 ∧ st.rel_ext_frag ≠ 1 - 728 / 928 := by
  have h1 : walk_free_size heap_split [48, 256] = 928 := by decide
  have h2 : walk_largest heap_split [48, 256] = 728 := by decide
  have h3 := (@alloc_stats_walk 8 heap_split [48, 256] 3
    heap_split_wf.walk (by decide) (by decide) (by decide)).2
  rw [h1, h2] at h3
  refine ⟨h1, h2, _, h3, ?_, ?_⟩
  · simp [stats_of]
  · simp only [stats_of]; norm_num

/-- C10: on every heap reachable from `init_heap`, with `l` the chunks of its
walk, `alloc_stats` returns as soon as the fuel exceeds the length of `l`; its
loop ends with `meta_size = heap_size - (sum of all curr_size)` without
wrap-around, `largest ≤ free_size`, the sum of all `curr_size` is at most
`heap_size`, and both ratios lie in `[0, 1]`. -/
theorem alloc_stats_in_unit_interval (H D : Nat) (h : Heap) (hr : Reachable H D h) :
    ∃ l st, isWalk H h (begin_chunk h) l (end_chunk h) ∧
      (∀ fuel, l.length < fuel →
        stats_loop H h fuel (begin_chunk h) h.info.heap_size 0 0 =
          some (Res.ok (h.info.heap_size - walk_total_size h l, walk_free_size h l,
            walk_largest h l) h) ∧
        alloc_stats H fuel h = some (Res.ok st h)) ∧
      walk_largest h l ≤ walk_free_size h l ∧
      walk_total_size h l ≤ h.info.heap_size ∧
      0 ≤ st.rel_ext_frag ∧ st.rel_ext_frag ≤ 1 ∧
      0 ≤ st.rel_metadata ∧ st.rel_metadata ≤ 1 := by
  obtain ⟨l, hwf, _, hacc, hlt⟩ := hr.inv
  have htot := isChain_total hwf.chain
  have ht : walk_total_size h l ≤ h.info.heap_size := by omega
  have hlf := walk_largest_le_free h l
  obtain ⟨b1, b2, b3, b4⟩ := stats_of_bounds h.info.heap_size (walk_total_size h l)
    (walk_free_size h l) (walk_largest h l) hlf
  exact ⟨l, _, hwf.walk, fun fuel hfuel => alloc_stats_walk fuel hwf.walk hfuel ht hlt,
    hlf, ht, b1, b2, b3, b4⟩

/-- Witness of C10 on `heap_used`. -/
theorem alloc_stats_in_unit_interval_witness :
    Reachable 8 48 heap_used ∧
    ∃ l st, isWalk 8 heap_used (begin_chunk heap_used) l (end_chunk heap_used) ∧
      (∀ fuel, l.length < fuel → alloc_stats 8 fuel heap_used = some (Res.ok st heap_used)) ∧
      0 ≤ st.rel_ext_frag ∧ st.rel_ext_frag ≤ 1 ∧
      0 ≤ st.rel_metadata ∧ st.rel_metadata ≤ 1 := by
  refine ⟨heap_used_reachable, ?_⟩
  obtain ⟨l, st, a1, a2, _, _, a3, a4, a5, a6⟩ :=
    alloc_stats_in_unit_interval 8 48 heap_used heap_used_reachable
  exact ⟨l, st, a1, fun fuel hf => (a2 fuel hf).2, a3, a4, a5, a6⟩

/-! ## The statistics pass on well-formed heaps -/

/-- The loop of `alloc_stats` along a walk; only `free_size` is required not to
wrap around. -/
theorem stats_loop_walk_meta {H : Nat} {h : Heap} : ∀ {l : List Nat} {a e : Nat}
    (fuel m f g : Nat), isWalk H h a l e → l.length < fuel →
    f + walk_free_size h l < size_t_mod →
    stats_loop H h fuel a m f g =
      some (Res.ok (walk_meta_size h m l, f + walk_free_size h l,
        max g (walk_largest h l)) h) := by
  intro l
  induction l with
  | nil =>
    intro a e fuel m f g hw hfuel _
    obtain ⟨rfl, he⟩ := hw
    cases fuel with
    | zero => simp at hfuel
    | succ k => simp [stats_loop, he, walk_meta_size, walk_free_size, walk_largest]
  | cons c l ih =>
    intro a e fuel m f g hw hfuel hf
    obtain ⟨rfl, he, hr⟩ := hw
    cases fuel with
    | zero => simp at hfuel
    | succ k =>
      simp only [walk_meta_size, walk_free_size, walk_largest] at hf ⊢
      simp only [stats_loop, he, Bool.false_eq_true, if_false, next_chunk]
      by_cases hfr : is_free_chunk a h = true
      · simp only [hfr, if_true] at hf ⊢
        have hadd : add_size_t f (h.mem a).curr_size = f + (h.mem a).curr_size := by
          unfold add_size_t; exact Nat.mod_eq_of_lt (by omega)
        rw [hadd, ih k _ _ _ hr (by simpa using hfuel) (by omega)]
        congr 3
        congr 1
        · omega
        · by_cases hgt : (h.mem a).curr_size > g
          · simp only [hgt, if_true]; omega
          · simp only [hgt, if_false]; omega
      · simp only [hfr, Bool.false_eq_true, if_false] at hf ⊢
        rw [ih k _ _ _ hr (by simpa using hfuel) (by omega)]
        congr 3
        congr 1
        omega

/-- In a well-formed heap the chunk sizes add up to less than the marker. -/
theorem WellFormed.total_lt {H : Nat} {h : Heap} {l : List Nat} (hwf : WellFormed H h l) :
    walk_total_size h l < size_marker := by
  have htot := isChain_total hwf.chain
  have hx := hwf.extent
  cases l with
  | nil => rw [size_marker_eq]; simp [walk_total_size]
  | cons c l =>
    have : H ≤ (c :: l).length * H := Nat.le_mul_of_pos_left H (by simp)
    omega

/-- The result of `alloc_stats` on a well-formed heap with walk `l`. -/
theorem WellFormed.stats_result {H : Nat} {h : Heap} {l : List Nat} (hwf : WellFormed H h l)
    (fuel : Nat) (hfuel : l.length < fuel) :
    stats_loop H h fuel (begin_chunk h) h.info.heap_size 0 0 =
      some (Res.ok (walk_meta_size h h.info.heap_size l, walk_free_size h l,
        walk_largest h l) h) ∧
    Malloc.alloc_stats H fuel h =
      some (Res.ok (stats_of h.info.heap_size (walk_meta_size h h.info.heap_size l)
        (walk_free_size h l) (walk_largest h l)) h) := by
  have h1 := hwf.total_lt
  have h2 := walk_free_le_total h l
  rw [size_marker_eq] at h1
  have hloop := stats_loop_walk_meta fuel h.info.heap_size 0 0 hwf.walk hfuel
    (by simp only [size_t_mod]; omega)
  simp only [Nat.zero_add, Nat.zero_max] at hloop
  refine ⟨hloop, ?_⟩
  unfold Malloc.alloc_stats
  rw [hloop]

/-- A reachable heap is well-formed along any list that is its walk. -/
theorem Reachable.wf_of_walk {H D : Nat} {h : Heap} {l : List Nat} (hr : Reachable H D h)
    (hw : isWalk H h (begin_chunk h) l (end_chunk h)) : WellFormed H h l := by
  obtain ⟨l0, hwf, _⟩ := hr.inv
  obtain ⟨rfl, _⟩ := isWalk_unique hw hwf.walk
  exact hwf

theorem heap_full_reachable : Reachable 8 48 heap_full :=
  Reachable.use heap_used heap_full 256 heap_used_reachable
    ⟨[48, 256], by decide, Or.inl (by decide)⟩ rfl

theorem heap_full_wf : WellFormed 8 heap_full [48, 256] :=
  heap_full_reachable.wf_of_walk (by decide)

/-- C11: on every heap reachable from `init_heap`, with `k` the number of
chunks before the end sentinel, the loop of `alloc_stats` ends with
`meta_size = sizeof (struct info) + head_size () * (k + 1)`, which is
`heap_size` minus the sum of every `curr_size`, and
`rel_metadata = meta_size / heap_size`; if the heap is the one `init_heap`
returned for a range of `size` bytes, then `k = 1` and
`rel_metadata = (sizeof (struct info) + 2 * head_size ()) / size`. -/
theorem metadata_accounting (H D : Nat) (h : Heap) (hr : Reachable H D h) :
    ∃ l st, isWalk H h (begin_chunk h) l (end_chunk h) ∧
      (∀ fuel, l.length < fuel →
        stats_loop H h fuel (begin_chunk h) h.info.heap_size 0 0 =
          some (Res.ok (D + H * (l.length + 1), walk_free_size h l, walk_largest h l) h) ∧
        alloc_stats H fuel h = some (Res.ok st h)) ∧
      h.info.heap_size - walk_total_size h l = D + H * (l.length + 1) ∧
      st.rel_metadata = ((D + H * (l.length + 1) : Nat) : ℚ) / (h.info.heap_size : ℚ) ∧
      (∀ size heap h0, init_heap H D size heap h0 = Res.ok () h →
        l = [begin_chunk h] ∧
        st.rel_metadata = ((D + 2 * H : Nat) : ℚ) / (size : ℚ)) := by
  obtain ⟨l, hwf, _, hacc, hlt⟩ := hr.inv
  have htot := isChain_total hwf.chain
  have hmeta : h.info.heap_size - walk_total_size h l = D + H * (l.length + 1) := by
    rw [Nat.mul_add, Nat.mul_one, Nat.mul_comm]; omega
  have ht : walk_total_size h l ≤ h.info.heap_size := by omega
  have hst := fun fuel hfuel => alloc_stats_walk fuel hwf.walk hfuel ht hlt
  simp only [hmeta] at hst
  refine ⟨l, _, hwf.walk, hst, hmeta, rfl, ?_⟩
  intro size heap h0 hi
  obtain ⟨hwf1, _, _⟩ := init_heap_wf hwf.head_pos hi
  obtain ⟨_, hinfo, _⟩ := init_heap_mem hwf.head_pos hi
  obtain ⟨rfl, _⟩ := isWalk_unique hwf.walk hwf1.walk
  refine ⟨rfl, ?_⟩
  simp only [stats_of, hinfo, List.length_singleton]
  congr 2
  omega

/-- Witness of C11 on `heap_1000`. -/
theorem metadata_accounting_witness :
    Reachable 8 48 heap_1000 ∧
    ∃ l st, isWalk 8 heap_1000 (begin_chunk heap_1000) l (end_chunk heap_1000) ∧
      (∀ fuel, l.length < fuel → alloc_stats 8 fuel heap_1000 = some (Res.ok st heap_1000)) ∧
      l = [begin_chunk heap_1000] ∧
      st.rel_metadata = ((48 + 2 * 8 : Nat) : ℚ) / ((1000 : Nat) : ℚ) := by
  refine ⟨heap_1000_reachable, ?_⟩
  obtain ⟨l, st, a1, a2, _, _, a3⟩ := metadata_accounting 8 48 heap_1000 heap_1000_reachable
  obtain ⟨a4, a5⟩ := a3 1000 0 raw_heap rfl
  exact ⟨l, st, a1, fun fuel hf => (a2 fuel hf).2, a4, a5⟩

/-- C12: in a well-formed heap whose FREE chunks before the end sentinel have
total size 0, `alloc_stats` returns once the fuel exceeds the number of chunks;
its loop ends with `free_size = 0`, so the division by `free_size` is not
evaluated, and `rel_ext_frag` is exactly 1; if the heap is reachable from
`init_heap`, the divisor `heap_size` of the other ratio is not 0 either. -/
theorem alloc_stats_no_free_memory (H : Nat) (h : Heap) (l : List Nat)
    (hwf : WellFormed H h l) (hfree : walk_free_size h l = 0) :
    ∃ st, (∀ fuel, l.length < fuel →
        (∃ m g, stats_loop H h fuel (begin_chunk h) h.info.heap_size 0 0 =
          some (Res.ok (m, 0, g) h)) ∧
        alloc_stats H fuel h = some (Res.ok st h)) ∧
      st.rel_ext_frag = 1 ∧
      (∀ D, Reachable H D h → 0 < h.info.heap_size) := by
  refine ⟨stats_of h.info.heap_size (walk_meta_size h h.info.heap_size l)
    (walk_free_size h l) (walk_largest h l), ?_, ?_, ?_⟩
  · intro fuel hfuel
    obtain ⟨h1, h2⟩ := hwf.stats_result fuel hfuel
    rw [hfree] at h1
    exact ⟨⟨_, _, h1⟩, h2⟩
  · simp [stats_of, hfree]
  · intro D hr
    obtain ⟨l0, hwf0, _, hacc, _⟩ := hr.inv
    have := isChain_le hwf0.chain
    have := hwf.head_pos
    omega

/-- Witness of C12 on `heap_full`, whose two chunks are both USED. -/
theorem alloc_stats_no_free_memory_witness :
    (WellFormed 8 heap_full [48, 256] ∧ walk_free_size heap_full [48, 256] = 0) ∧
    ∃ st, (∀ fuel, [48, 256].length < fuel →
        alloc_stats 8 fuel heap_full = some (Res.ok st heap_full)) ∧
      st.rel_ext_frag = 1 := by
  refine ⟨⟨heap_full_wf, by decide⟩, ?_⟩
  obtain ⟨st, a1, a2, _⟩ :=
    alloc_stats_no_free_memory 8 heap_full [48, 256] heap_full_wf (by decide)
  exact ⟨st, fun fuel hf => (a1 fuel hf).2, a2⟩

/-! ## Allocate-then-free cycles -/

/-- Marking a FREE chunk of a well-formed heap used and then free gives the
heap back. -/
theorem WellFormed.use_free {H c : Nat} {h : Heap} {l : List Nat}
    (hwf : WellFormed H h l) (hc : c ∈ l) (hf : is_free_chunk c h = true) :
    ∃ h1, use_chunk H c h = Res.ok () h1 ∧ h1.info = h.info ∧
      free_chunk H c h1 = Res.ok () h := by
  have hH := hwf.head_pos
  have hb := hwf.bounds hc
  have he := is_end_chunk_false_of_lt hb.2.2
  obtain ⟨_, _, hq3⟩ := adjacent_at_iff.mp (hwf.adj c hc)
  have hfree : (h.mem c).curr_state = FREE_CHUNK := by simpa [is_free_chunk] using hf
  obtain ⟨h1, hr1⟩ := @use_chunk_ok H c h hf he
  obtain ⟨_, _, hinfo1, hm1⟩ := use_chunk_mem hH hr1
  have hc1 : h1.mem c = { h.mem c with curr_state := USED_CHUNK } := by
    rw [hm1 c, if_neg (by omega), if_pos rfl]
  have hn1 : h1.mem (c + H + (h.mem c).curr_size) =
      { h.mem (c + H + (h.mem c).curr_size) with prev_state := USED_CHUNK } := by
    rw [hm1 _, if_pos rfl]
  have u1 : is_used_chunk c h1 = true := by simp [is_used_chunk, hc1]
  have e1 : is_end_chunk c h1 = false := by
    simp only [is_end_chunk, hc1]; exact he
  obtain ⟨h2, hr2⟩ := @free_chunk_ok H c h1 u1 e1
  obtain ⟨_, _, hinfo2, hm2⟩ := free_chunk_mem hH hr2
  have hcs : (h1.mem c).curr_size = (h.mem c).curr_size := by rw [hc1]
  rw [hcs] at hm2
  have heq : h2 = h := by
    refine Heap.eq_of (by rw [hinfo2, hinfo1]) ?_
    intro x
    by_cases h1x : x = c + H + (h.mem c).curr_size
    · rw [hm2 x, if_pos h1x, h1x, hn1]
      exact chunk.set_prev_state_self _ _ (by rw [hq3, hfree])
    · by_cases h2x : x = c
      · rw [hm2 x, if_neg h1x, if_pos h2x, h2x, hc1]
        exact chunk.set_curr_state_self _ _ hfree
      · rw [hm2 x, if_neg h1x, if_neg h2x, hm1 x, if_neg h1x, if_neg h2x]
  rw [heq] at hr2
  exact ⟨h1, hr1, hinfo1, hr2⟩

/-- Coalescing the remainder of a split restores every header but the dead one. -/
theorem WellFormed.split_coalesce {H c size : Nat} {h : Heap} {l : List Nat}
    (hwf : WellFormed H h l) (hc : c ∈ l) (hf : is_free_chunk c h = true)
    (hs : size + H ≤ (h.mem c).curr_size) :
    ∃ h1 h2 l1, split_chunk H c size h = Res.ok (c + H + size) h1 ∧
      h1.info = h.info ∧ WellFormed H h1 l1 ∧ c ∈ l1 ∧ is_free_chunk c h1 = true ∧
      coalesce_chunk H (c + H + size) h1 = Res.ok c h2 ∧
      h2.info = h.info ∧ (∀ x, x ≠ c + H + size → h2.mem x = h.mem x) ∧
      WellFormed H h2 l ∧ c + H + size + H ≤ end_chunk h := by
  have hH := hwf.head_pos
  have hb := hwf.bounds hc
  have he := is_end_chunk_false_of_lt hb.2.2
  have hmk := size_marker_eq
  obtain ⟨_, hq2, hq3⟩ := adjacent_at_iff.mp (hwf.adj c hc)
  obtain ⟨h1, hr⟩ := @split_chunk_ok H c size h hf he
  obtain ⟨_, _, hinfo1, hm1⟩ := split_chunk_mem hH hs hb.2.2 hr
  simp only [chunk_data] at hr
  obtain ⟨k1, k2, _, hwf1⟩ := hwf.split hc hs hr
  have hc1 : h1.mem c = { h.mem c with curr_size := size } := by
    rw [hm1 c, if_neg (by omega), if_neg (by omega), if_pos rfl]
  have hr1 : h1.mem (c + H + size) =
      ⟨size, FREE_CHUNK, (h.mem c).curr_size - size - H, FREE_CHUNK⟩ := by
    rw [hm1 _, if_pos rfl]
  have hn1 : h1.mem (c + H + (h.mem c).curr_size) =
      { h.mem (c + H + (h.mem c).curr_size) with
        prev_size := (h.mem c).curr_size - size - H } := by
    rw [hm1 _, if_neg (by omega), if_pos rfl]
  have f0 : is_free_chunk c h1 = true := by
    simp only [is_free_chunk, hc1]; exact hf
  have f1 : is_free_chunk (c + H + size) h1 = true := by simp [is_free_chunk, hr1]
  have f2 : is_free_prev_chunk (c + H + size) h1 = true := by simp [is_free_prev_chunk, hr1]
  have f3 : is_begin_chunk (c + H + size) h1 = false := by
    simp only [is_begin_chunk, hr1, beq_eq_false_iff_ne]; omega
  have f4 : is_end_chunk (c + H + size) h1 = false := by
    simp only [is_end_chunk, hr1, beq_eq_false_iff_ne]; omega
  obtain ⟨h2, hr2⟩ := @coalesce_chunk_ok H (c + H + size) h1 f1 f2 f3 f4
  have hdp : data_chunk H (prev_chunk_data (c + H + size) h1) = c := by
    simp only [data_chunk, prev_chunk_data, hr1]; omega
  rw [hdp] at hr2
  obtain ⟨_, _, _, hinfo2, hm2⟩ := @coalesce_chunk_mem H (c + H + size) c c h1 h2 hH
    (by rw [hr1]) (by rw [hr1]; simp only; omega) (by rw [hr1]; simp only; omega) hr2
  simp only [hr1] at hm2
  have hsum : size + H + ((h.mem c).curr_size - size - H) = (h.mem c).curr_size := by omega
  have hnx : c + H + size + H + ((h.mem c).curr_size - size - H)
      = c + H + (h.mem c).curr_size := by omega
  rw [hsum, hnx] at hm2
  have hc2 : h2.mem c = h.mem c := by
    rw [hm2 c, if_pos rfl, hc1]
  have hn2 : h2.mem (c + H + (h.mem c).curr_size) = h.mem (c + H + (h.mem c).curr_size) := by
    rw [hm2 _, if_neg (by omega), if_pos rfl, hn1]
    exact chunk.set_prev_size_self _ _ hq2
  have hrest : ∀ x, x ≠ c + H + size → h2.mem x = h.mem x := by
    intro x hx
    by_cases h1x : x = c
    · rw [h1x]; exact hc2
    · by_cases h2x : x = c + H + (h.mem c).curr_size
      · rw [h2x]; exact hn2
      · rw [hm2 x, if_neg h1x, if_neg h2x, hm1 x, if_neg hx, if_neg h2x, if_neg h1x]
  have hinfo : h2.info = h.info := by rw [hinfo2, hinfo1]
  have hrl : ∀ x ∈ l, x ≠ c + H + size := by
    intro x hx hxe
    rcases isChain_apart hwf.chain hc hx with h3 | h3 | h3 <;> omega
  refine ⟨h1, h2, _, hr, hinfo1, hwf1, by simp, f0, hr2, hinfo, hrest, ?_, by omega⟩
  exact hwf.congr hinfo (fun x hx => hrest x (hrl x hx)) (hrest _ (by omega))

/-- One cycle on a well-formed heap whose first chunk is FREE and large
enough. -/
theorem WellFormed.cycle {H size : Nat} {h : Heap} {l : List Nat}
    (hwf : WellFormed H h l) (hb : begin_chunk h ∈ l)
    (hf : is_free_chunk (begin_chunk h) h = true)
    (hs : size + H ≤ (h.mem (begin_chunk h)).curr_size) :
    ∃ h1, alloc_free_cycle H size h = Res.ok () h1 ∧ h1.info = h.info ∧
      WellFormed H h1 l ∧ (∀ x, x ≠ begin_chunk h + H + size → h1.mem x = h.mem x) ∧
      begin_chunk h + H + size + H ≤ end_chunk h := by
  obtain ⟨h1, h2, l1, a1, a2, a3, a4, a5, a6, a7, a8, a9, a10⟩ :=
    hwf.split_coalesce hb hf hs
  obtain ⟨h3, b1, b2, b3⟩ := a3.use_free a4 a5
  have e1 : begin_chunk h1 = begin_chunk h := by simp [begin_chunk, a2]
  have e2 : begin_chunk h3 = begin_chunk h := by simp [begin_chunk, b2, a2]
  refine ⟨h2, ?_, a7, a9, a8, a10⟩
  simp only [alloc_free_cycle, chunk_data, a1, e1, b1, e2, b3, a6]

/-- Any number of cycles on a well-formed single-chunk heap. -/
theorem WellFormed.cycles {H : Nat} (sizes : List Nat) : ∀ {h : Heap} {b e : Nat} {v w : chunk},
    WellFormed H h [b] → begin_chunk h = b → end_chunk h = e → h.mem b = v → h.mem e = w →
    v.curr_state = FREE_CHUNK → (∀ s ∈ sizes, s + H ≤ v.curr_size) →
    ∃ h1, alloc_free_cycles H sizes h = Res.ok () h1 ∧ h1.info = h.info ∧
      WellFormed H h1 [b] ∧ h1.mem b = v ∧ h1.mem e = w := by
  induction sizes with
  | nil =>
    intro h b e v w hwf _ _ hv hw _ _
    exact ⟨h, rfl, rfl, hwf, hv, hw⟩
  | cons s sizes ih =>
    intro h b e v w hwf hb he hv hw hfree hs
    have hH := hwf.head_pos
    have hbl : begin_chunk h ∈ [b] := by rw [hb]; simp
    have hf : is_free_chunk (begin_chunk h) h = true := by
      simp [is_free_chunk, hb, hv, hfree]
    have hs1 : s + H ≤ (h.mem (begin_chunk h)).curr_size := by
      rw [hb, hv]; exact hs s (List.mem_cons_self _ _)
    obtain ⟨h1, c1, c2, c3, c4, c5⟩ := hwf.cycle hbl hf hs1
    rw [hb, he] at c5
    rw [hb] at c4
    have hb1 : begin_chunk h1 = b := by simp [begin_chunk, c2]; exact hb
    have he1 : end_chunk h1 = e := by simp [end_chunk, c2]; exact he
    obtain ⟨h2, d1, d2, d3, d4, d5⟩ := ih c3 hb1 he1
      ((c4 b (by omega)).trans hv) ((c4 e (by omega)).trans hw) hfree
      (fun s1 hs1 => hs s1 (List.mem_cons_of_mem _ hs1))
    refine ⟨h2, ?_, d2.trans c2, d3, d4, d5⟩
    simp only [alloc_free_cycles, c1, d1]

/-- C13: on the heap `init_heap` returned, any sequence of cycles
`r := split_chunk (begin, s); use_chunk (begin); free_chunk (begin);
coalesce_chunk (r)` with `s + head_size () ≤ begin_chunk ().curr_size` returns
and leaves the initial single-free-chunk state: the descriptor is unchanged,
the walk is the one FREE chunk `begin_chunk ()` followed by the end sentinel,
and the headers of both have the values they had right after `init_heap`. -/
theorem alloc_free_cycles_restore (H D size heap : Nat) (h0 h : Heap) (sizes : List Nat)
    (hH : 0 < H) (hi : init_heap H D size heap h0 = Res.ok () h)
    (hs : ∀ s ∈ sizes, s + H ≤ (h.mem (begin_chunk h)).curr_size) :
    ∃ h1, alloc_free_cycles H sizes h = Res.ok () h1 ∧ h1.info = h.info ∧
      isWalk H h1 (begin_chunk h1) [begin_chunk h1] (end_chunk h1) ∧
      is_free_chunk (begin_chunk h1) h1 = true ∧
      h1.mem (begin_chunk h1) = h.mem (begin_chunk h) ∧
      h1.mem (end_chunk h1) = h.mem (end_chunk h) := by
  obtain ⟨hwf, hf, _⟩ := init_heap_wf hH hi
  have hfree : (h.mem (begin_chunk h)).curr_state = FREE_CHUNK := by
    simpa [is_free_chunk] using hf
  obtain ⟨h1, a1, a2, a3, a4, a5⟩ := WellFormed.cycles sizes hwf rfl rfl rfl rfl hfree hs
  have hb1 : begin_chunk h1 = begin_chunk h := by simp [begin_chunk, a2]
  have he1 : end_chunk h1 = end_chunk h := by simp [end_chunk, a2]
  refine ⟨h1, a1, a2, ?_, ?_, ?_, ?_⟩
  · rw [hb1]; have := a3.walk; rw [hb1] at this; exact this
  · rw [hb1]; simp [is_free_chunk, a4, hfree]
  · rw [hb1]; exact a4
  · rw [he1]; exact a5

/-- Witness of C13: three cycles of 100, 0 and 928 bytes on `heap_1000`. -/
theorem alloc_free_cycles_restore_witness :
    (0 < 8 ∧ init_heap 8 48 1000 0 raw_heap = Res.ok () heap_1000 ∧
      ∀ s ∈ [100, 0, 928], s + 8 ≤ (heap_1000.mem (begin_chunk heap_1000)).curr_size) ∧
    ∃ h1, alloc_free_cycles 8 [100, 0, 928] heap_1000 = Res.ok () h1 ∧
      h1.info = heap_1000.info ∧
      isWalk 8 h1 (begin_chunk h1) [begin_chunk h1] (end_chunk h1) ∧
      is_free_chunk (begin_chunk h1) h1 = true ∧
      h1.mem (begin_chunk h1) = heap_1000.mem (begin_chunk heap_1000) ∧
      h1.mem (end_chunk h1) = heap_1000.mem (end_chunk heap_1000) :=
  ⟨⟨by decide, rfl, by decide⟩,
    alloc_free_cycles_restore 8 48 1000 0 raw_heap heap_1000 [100, 0, 928] (by decide) rfl
      (by decide)⟩

/-! ## Ranges outside the domain of `init_heap` -/

theorem returned_iff {α : Type} (r : Res α) : returned r = true ↔ ∃ a h, r = Res.ok a h := by
  cases r with
  | ok a h => simp [returned]
  | abort h => simp [returned]

/-- The call `init_heap` returns exactly when the 31-bit free size it stores is
not the marker. -/
theorem init_heap_returned_iff {H D size heap : Nat} {h0 : Heap} (hH : 0 < H) :
    returned (init_heap H D size heap h0) = true ↔ init_free_size H D size ≠ size_marker := by
  constructor
  · intro hr
    obtain ⟨a, h, hh⟩ := (returned_iff _).mp hr
    exact (init_heap_mem hH hh).1
  · intro he
    obtain ⟨h, hh⟩ := @init_heap_ok H D size heap h0 he
    rw [hh]; rfl

/-- C14, as stated, fails: with `head_size () = 8` and a 48-byte descriptor a
range of 16 bytes is too small, yet `init_heap` returns; it has stored the
wrapped size `2 ^ 31 - 48` in `begin->curr_size` and put the end sentinel at
address `2 ^ 31 + 8`, far beyond the 16 bytes. -/
theorem init_heap_too_small_returns :
    16 < 48 + 2 * 8 ∧ returned (init_heap 8 48 16 0 raw_heap) = true ∧
    ((heap_of (init_heap 8 48 16 0 raw_heap)).mem 48).curr_size = 2147483600 ∧
    end_chunk (heap_of (init_heap 8 48 16 0 raw_heap)) = 2147483656 := by
  refine ⟨by decide, rfl, by decide, by decide⟩

/-- C14, amended: `init_heap` does not check the size.  On a range too small
for the descriptor and two headers it aborts, in `next_chunk (info->begin)`,
exactly when the free size wrapped to 31 bits is the marker, which for
`sizeof (struct info) + 2 * head_size () ≤ 2 ^ 31` means
`size = sizeof (struct info) + 2 * head_size () - 1`; for every other such
size it returns with the wrapped value in `begin->curr_size` and the header of
the end sentinel reaching beyond `heap + size`. -/
theorem init_heap_small_range (H D size heap : Nat) (h0 : Heap) (hH : 0 < H)
    (hsmall : size < D + 2 * H) :
    (returned (init_heap H D size heap h0) = false ↔
      init_free_size H D size = size_marker) ∧
    (D + 2 * H ≤ field_mod →
      (returned (init_heap H D size heap h0) = false ↔ size + 1 = D + 2 * H)) ∧
    (∀ h, init_heap H D size heap h0 = Res.ok () h →
      (h.mem (begin_chunk h)).curr_size = init_free_size H D size ∧
      heap + size < end_chunk h + H) := by
  have hiff := @init_heap_returned_iff H D size heap h0 hH
  have h1 : returned (init_heap H D size heap h0) = false ↔
      init_free_size H D size = size_marker := by
    constructor
    · intro hf
      by_contra hne
      rw [hiff.mpr hne] at hf
      cases hf
    · intro he
      by_contra hne
      have : returned (init_heap H D size heap h0) = true := by simpa using hne
      exact (hiff.mp this) he
  refine ⟨h1, ?_, ?_⟩
  · intro hD
    rw [h1, size_marker_eq]
    unfold init_free_size
    simp only [field_mod] at hD ⊢
    omega
  · intro h hh
    obtain ⟨_, _, hcs⟩ := init_heap_wf hH hh
    obtain ⟨_, hinfo, _⟩ := init_heap_mem hH hh
    refine ⟨hcs, ?_⟩
    simp only [end_chunk, hinfo]
    omega

/-- Witness of the amended C14 on a range of 16 bytes. -/
theorem init_heap_small_range_witness :
    (0 < 8 ∧ 16 < 48 + 2 * 8) ∧
    (returned (init_heap 8 48 16 0 raw_heap) = false ↔ 16 + 1 = 48 + 2 * 8) :=
  ⟨by decide, (init_heap_small_range 8 48 16 0 raw_heap (by decide) (by decide)).2.1 (by decide)⟩

/-! ## Sentinels and the address of the predecessor -/

/-- C16: in every heap reachable from `init_heap`, `begin_chunk ()` has
`prev_size = size_marker ()` and `prev_state = USED`, `end_chunk ()` has
`curr_size = size_marker ()` and `curr_state = USED`, no chunk of the walk has
`curr_size = size_marker ()`, no chunk of the walk or end sentinel other than
`begin_chunk ()` has `prev_size = size_marker ()`, and
`coalesce_chunk (begin_chunk ())` and `coalesce_chunk (end_chunk ())` abort
with the heap unchanged. -/
theorem sentinels_stable (H D : Nat) (h : Heap) (hr : Reachable H D h) :
    ∃ l, isWalk H h (begin_chunk h) l (end_chunk h) ∧
      (h.mem (begin_chunk h)).prev_size = size_marker ∧
      (h.mem (begin_chunk h)).prev_state = USED_CHUNK ∧
      (h.mem (end_chunk h)).curr_size = size_marker ∧
      (h.mem (end_chunk h)).curr_state = USED_CHUNK ∧
      (∀ c ∈ l, (h.mem c).curr_size ≠ size_marker) ∧
      (∀ c, (c ∈ l ∨ c = end_chunk h) → c ≠ begin_chunk h →
        (h.mem c).prev_size ≠ size_marker) ∧
      coalesce_chunk H (begin_chunk h) h = Res.abort h ∧
      coalesce_chunk H (end_chunk h) h = Res.abort h := by
  obtain ⟨l, hwf, _⟩ := hr.inv
  refine ⟨l, hwf.walk, hwf.begin_marker, hwf.begin_prev_used, hwf.end_marker, hwf.end_used,
    ?_, ?_, ?_, ?_⟩
  · intro c hc
    exact (adjacent_at_iff.mp (hwf.adj c hc)).1
  · intro c hc hne
    obtain ⟨p, hp, hpc⟩ := hwf.pred hc hne
    obtain ⟨q1, q2, _⟩ := adjacent_at_iff.mp (hwf.adj p hp)
    rw [hpc, q2]; exact q1
  · have hu : is_free_prev_chunk (begin_chunk h) h = false := by
      simp [is_free_prev_chunk, hwf.begin_prev_used]
    by_cases hf : is_free_chunk (begin_chunk h) h = true <;> simp [coalesce_chunk, hf, hu]
  · have hu : is_free_chunk (end_chunk h) h = false := by
      simp [is_free_chunk, hwf.end_used]
    simp [coalesce_chunk, hu]

/-- Witness of C16 on `heap_used`. -/
theorem sentinels_stable_witness :
    Reachable 8 48 heap_used ∧
    ∃ l, isWalk 8 heap_used (begin_chunk heap_used) l (end_chunk heap_used) ∧
      (heap_used.mem (begin_chunk heap_used)).prev_size = size_marker ∧
      (heap_used.mem (end_chunk heap_used)).curr_size = size_marker ∧
      coalesce_chunk 8 (begin_chunk heap_used) heap_used = Res.abort heap_used ∧
      coalesce_chunk 8 (end_chunk heap_used) heap_used = Res.abort heap_used := by
  refine ⟨heap_used_reachable, ?_⟩
  obtain ⟨l, a1, a2, _, a3, _, _, _, a4, a5⟩ :=
    sentinels_stable 8 48 heap_used heap_used_reachable
  exact ⟨l, a1, a2, a3, a4, a5⟩

/-- C17, as stated, fails: in `heap_split` the chunk at 256 has `prev_size`
200; `prev_chunk` returns the header at 48, while the data start of the chunk
minus `prev_size` is 264 - 200 = 64. -/
theorem prev_chunk_not_data_minus_prev_size :
    is_begin_chunk 256 heap_split = false ∧
    prev_chunk 8 256 heap_split = Res.ok 48 heap_split ∧
    chunk_data 8 256 - (heap_split.mem 256).prev_size = 64 ∧
    prev_chunk 8 256 heap_split ≠
      Res.ok (chunk_data 8 256 - (heap_split.mem 256).prev_size) heap_split := by
  refine ⟨by decide, rfl, by decide, ?_⟩
  intro hc
  have h1 : prev_chunk 8 256 heap_split = Res.ok 48 heap_split := rfl
  rw [h1] at hc
  simp only [Res.ok.injEq, and_true] at hc
  revert hc
  decide

/-- C17, amended: for every chunk `c` that is not begin-marked, `prev_chunk (c)`
returns the header at `c - c.prev_size - head_size ()`, that is
`data_chunk (prev_chunk_data (c))`: the data of the previous chunk ends at the
header of `c`, not at the data start of `c`. -/
theorem prev_chunk_address (H c : Nat) (h : Heap) (hb : is_begin_chunk c h = false) :
    prev_chunk H c h = Res.ok (c - (h.mem c).prev_size - H) h ∧
    data_chunk H (prev_chunk_data c h) = c - (h.mem c).prev_size - H ∧
    ((h.mem c).prev_size + H ≤ c →
      chunk_data H (c - (h.mem c).prev_size - H) + (h.mem c).prev_size = c) := by
  refine ⟨?_, rfl, ?_⟩
  · simp [prev_chunk, hb, data_chunk, prev_chunk_data]
  · intro hle
    simp only [chunk_data]; omega

/-- Witness of the amended C17 on the second chunk of `heap_split`. -/
theorem prev_chunk_address_witness :
    is_begin_chunk 256 heap_split = false ∧
    prev_chunk 8 256 heap_split = Res.ok (256 - (heap_split.mem 256).prev_size - 8) heap_split :=
  ⟨by decide, (prev_chunk_address 8 256 heap_split (by decide)).1⟩

/-! ## Unchecked split size -/

/-- C18: `split_chunk` has no assertion on `size`: on any heap, for every FREE
chunk `c` that is not end-marked and every `size`, it returns the header at
`chunk_data (c) + size`.  And on the well-formed `heap_1000`, splitting the
FREE chunk at 48 at its full size 936 (so `size + head_size () > curr_size`)
puts the remainder on the header of the next chunk, the end sentinel at 992,
stores `2 ^ 31 - head_size ()` in its `curr_size`, and leaves a heap in which
adjacency fails at chunk 48 and no walk from `begin_chunk ()` satisfies the
adjacency invariant. -/
theorem split_chunk_unchecked (H c size : Nat) (h : Heap)
    (hf : is_free_chunk c h = true) (he : is_end_chunk c h = false) :
    (∃ h1, split_chunk H c size h = Res.ok (chunk_data H c + size) h1) ∧
    (WellFormed 8 heap_1000 [48] ∧ is_free_chunk 48 heap_1000 = true ∧
      (heap_1000.mem 48).curr_size = 936 ∧ (heap_1000.mem 48).curr_size < 936 + 8 ∧
      split_chunk 8 48 936 heap_1000 = Res.ok 992 heap_overrun ∧
      next_chunk 8 48 heap_1000 = Res.ok 992 heap_1000 ∧
      (heap_overrun.mem 992).curr_size = 2147483648 - 8 ∧
      ¬ adjacent_at 8 heap_overrun 48 ∧
      ¬ ∃ l, isWalk 8 heap_overrun (begin_chunk heap_overrun) l (end_chunk heap_overrun) ∧
        ∀ A ∈ l, adjacent_at 8 heap_overrun A) := by
  have hna : ¬ adjacent_at 8 heap_overrun 48 := by
    rw [adjacent_at_iff]; decide
  refine ⟨split_chunk_ok hf he, heap_1000_wf, by decide, by decide, by decide, rfl, rfl,
    by decide, hna, ?_⟩
  rintro ⟨l, hw, hadj⟩
  cases l with
  | nil => exact absurd hw.1 (by decide)
  | cons a l =>
    have ha : begin_chunk heap_overrun = a := hw.1
    have : a = 48 := by rw [← ha]; decide
    subst this
    exact hna (hadj 48 (List.mem_cons_self _ _))

/-- Witness of C18 on `heap_split`: a split of its 200-byte chunk at 5000
bytes returns. -/
theorem split_chunk_unchecked_witness :
    (is_free_chunk 48 heap_split = true ∧ is_end_chunk 48 heap_split = false) ∧
    ∃ h1, split_chunk 8 48 5000 heap_split = Res.ok (chunk_data 8 48 + 5000) h1 :=
  ⟨by decide, (split_chunk_unchecked 8 48 5000 heap_split (by decide) (by decide)).1⟩

/-! ## The exact domain of `init_heap` -/

/-- Whether `init_heap` returns or aborts, `begin->curr_size` holds the 31-bit
cut of `size - D - 2 * H`. -/
theorem init_heap_stored {H D size heap : Nat} {h0 : Heap} (hH : 0 < H) :
    ((heap_of (init_heap H D size heap h0)).mem (heap + D)).curr_size
      = init_free_size H D size := by
  by_cases he : init_free_size H D size = size_marker
  · have hmk : size_marker % field_mod = size_marker := by decide
    unfold init_heap
    simp only [set_prev_size, set_curr_size, set_prev_state, set_curr_state, store_mem,
      store_info, next_chunk, is_end_chunk, chunk_data, if_true, init_free_size_eq, hmk, he,
      beq_self_eq_true, heap_of]
  · obtain ⟨h, hh⟩ := @init_heap_ok H D size heap h0 he
    obtain ⟨_, _, hcs⟩ := init_heap_wf hH hh
    obtain ⟨_, hinfo, _⟩ := init_heap_mem hH hh
    rw [hh]
    simp only [heap_of]
    have : begin_chunk h = heap + D := by simp [begin_chunk, hinfo]
    rw [← this]; exact hcs

/-- C19, as stated, fails at the upper end of the interval: with
`head_size () = 8`, a 48-byte descriptor and
`size = 48 + 2 * 8 + (2 ^ 31 - 1)`, the size is outside the interval, yet the
value stored in `begin->curr_size` equals `size - D - 2 * H`; it is the marker,
and `init_heap` aborts. -/
theorem init_heap_marker_size_stored :
    ¬ (48 + 2 * 8 ≤ 2147483711 ∧ 2147483711 - 48 - 2 * 8 < size_marker) ∧
    ((heap_of (init_heap 8 48 2147483711 0 raw_heap)).mem 48).curr_size
      = 2147483711 - 48 - 2 * 8 ∧
    returned (init_heap 8 48 2147483711 0 raw_heap) = false := by
  refine ⟨by decide, by decide, rfl⟩

/-- C19, amended: `init_heap` returns a heap that tiles the range exactly
(`begin->curr_size` is the integer `size - D - 2 * H`, the end sentinel's
header ends at `heap + size`, `end->prev_size = begin->curr_size`,
`end->prev_state = FREE`) if and only if `D + 2 * H ≤ size` and
`size - D - 2 * H < 2 ^ 31 - 1`.  The value stored in `begin->curr_size` is
always the 31-bit cut of `size - D - 2 * H`; it differs from
`size - D - 2 * H` below the interval and from `size - D - 2 * H ≥ 2 ^ 31` on,
and at `size - D - 2 * H = 2 ^ 31 - 1` it equals it, is the marker, and
`init_heap` aborts. -/
theorem init_heap_exact_domain (H D size heap : Nat) (h0 : Heap) (hH : 0 < H) :
    ((∃ h, init_heap H D size heap h0 = Res.ok () h ∧
        ((h.mem (begin_chunk h)).curr_size : Int) = (size : Int) - (D : Int) - 2 * (H : Int) ∧
        end_chunk h + H = heap + size ∧
        (h.mem (end_chunk h)).prev_size = (h.mem (begin_chunk h)).curr_size ∧
        (h.mem (end_chunk h)).prev_state = FREE_CHUNK) ↔
      (D + 2 * H ≤ size ∧ size - D - 2 * H < size_marker)) ∧
    ((heap_of (init_heap H D size heap h0)).mem (heap + D)).curr_size
      = init_free_size H D size ∧
    (size < D + 2 * H →
      (init_free_size H D size : Int) ≠ (size : Int) - (D : Int) - 2 * (H : Int)) ∧
    (D + 2 * H ≤ size → size_marker < size - D - 2 * H →
      init_free_size H D size ≠ size - D - 2 * H) ∧
    (D + 2 * H ≤ size → size - D - 2 * H = size_marker →
      init_free_size H D size = size - D - 2 * H ∧
      returned (init_heap H D size heap h0) = false) := by
  have hmk := size_marker_eq
  refine ⟨⟨?_, ?_⟩, init_heap_stored hH, ?_, ?_, ?_⟩
  · rintro ⟨h, hh, hcs, _, _, _⟩
    obtain ⟨hne, _, _⟩ := init_heap_mem hH hh
    obtain ⟨_, _, hcs1⟩ := init_heap_wf hH hh
    rw [hcs1] at hcs
    have hlt := init_free_size_lt_marker hne
    omega
  · rintro ⟨hd, hs⟩
    have hfs : init_free_size H D size = size - D - 2 * H := by
      rw [init_free_size_of_le hd]
      exact Nat.mod_eq_of_lt (by simp only [field_mod]; omega)
    obtain ⟨h, hh⟩ := @init_heap_ok H D size heap h0 (by omega)
    obtain ⟨hwf, _, hcs⟩ := init_heap_wf hH hh
    obtain ⟨_, hinfo, _⟩ := init_heap_mem hH hh
    obtain ⟨_, q2, q3⟩ := adjacent_at_iff.mp (hwf.adj _ (List.mem_singleton.mpr rfl))
    have hend : end_chunk h = begin_chunk h + H + (h.mem (begin_chunk h)).curr_size := by
      rw [hcs]; simp only [end_chunk, begin_chunk, hinfo]
    have hfree : (h.mem (begin_chunk h)).curr_state = FREE_CHUNK := by
      have := (init_heap_wf hH hh).2.1
      simpa [is_free_chunk] using this
    refine ⟨h, hh, ?_, ?_, ?_, ?_⟩
    · rw [hcs, hfs]; omega
    · simp only [end_chunk, hinfo, hfs]; omega
    · rw [hend]; exact q2
    · rw [hend, q3]; exact hfree
  · intro hs
    unfold init_free_size
    simp only [field_mod]
    omega
  · intro hd hs
    rw [init_free_size_of_le hd]
    have : (size - D - 2 * H) % field_mod < field_mod := Nat.mod_lt _ (by decide)
    simp only [field_mod] at this ⊢
    omega
  · intro hd hs
    have hfs : init_free_size H D size = size - D - 2 * H := by
      rw [init_free_size_of_le hd]
      exact Nat.mod_eq_of_lt (by simp only [field_mod]; omega)
    refine ⟨hfs, ?_⟩
    by_contra hne
    have hret : returned (init_heap H D size heap h0) = true := by simpa using hne
    exact (init_heap_returned_iff hH).mp hret (by omega)

/-- Witness of the amended C19 on a range of 1000 bytes. -/
theorem init_heap_exact_domain_witness :
    0 < 8 ∧
    ((∃ h, init_heap 8 48 1000 0 raw_heap = Res.ok () h ∧
        ((h.mem (begin_chunk h)).curr_size : Int) = (1000 : Nat) - (48 : Nat) - 2 * (8 : Nat) ∧
        end_chunk h + 8 = 0 + 1000 ∧
        (h.mem (end_chunk h)).prev_size = (h.mem (begin_chunk h)).curr_size ∧
        (h.mem (end_chunk h)).prev_state = FREE_CHUNK) ↔
      (48 + 2 * 8 ≤ 1000 ∧ 1000 - 48 - 2 * 8 < size_marker)) :=
  ⟨by decide, (init_heap_exact_domain 8 48 1000 0 raw_heap (by decide)).1⟩

/-! ## The walk of the statistics pass -/

theorem stats_visits_walk {H : Nat} {h : Heap} : ∀ {l : List Nat} {a e : Nat} (fuel : Nat),
    isWalk H h a l e → l.length < fuel → stats_visits H h fuel a = some (l, e) := by
  intro l
  induction l with
  | nil =>
    intro a e fuel hw hfuel
    obtain ⟨rfl, he⟩ := hw
    cases fuel with
    | zero => simp at hfuel
    | succ k => simp [stats_visits, he]
  | cons c l ih =>
    intro a e fuel hw hfuel
    obtain ⟨rfl, he, hr⟩ := hw
    cases fuel with
    | zero => simp at hfuel
    | succ k =>
      simp only [stats_visits, he, Bool.false_eq_true, if_false, next_chunk]
      rw [ih k hr (by simpa using hfuel)]

/-- The chunks of a chain come in strictly increasing address order. -/
theorem isChain_sorted {H : Nat} (hH : 0 < H) {h : Heap} : ∀ {l : List Nat} {a e : Nat},
    isChain H h a l e → l.Pairwise (fun x y => x < y) := by
  intro l
  induction l with
  | nil => intro a e _; exact List.Pairwise.nil
  | cons c l ih =>
    intro a e hc
    obtain ⟨rfl, _, _, _, hr⟩ := hc
    refine List.Pairwise.cons ?_ (ih hr)
    intro x hx
    have := (isChain_mem hr hx).1
    omega

/-- C20: on every heap reachable from `init_heap`, with `l` the chunks before
the end sentinel, `l` is in strictly increasing address order and, as soon as
the fuel exceeds the length of `l`, the loop of `alloc_stats` runs its body on
exactly the chunks `l` in that order, stops at `end_chunk ()`, does not abort
in `next_chunk`, and `alloc_stats` returns with the heap (headers and
descriptor) unchanged. -/
theorem stats_walk_terminates (H D : Nat) (h : Heap) (hr : Reachable H D h) :
    ∃ l, isWalk H h (begin_chunk h) l (end_chunk h) ∧
      l.Pairwise (fun x y => x < y) ∧
      ∀ fuel, l.length < fuel →
        stats_visits H h fuel (begin_chunk h) = some (l, end_chunk h) ∧
        (∃ r, stats_loop H h fuel (begin_chunk h) h.info.heap_size 0 0 = some (Res.ok r h)) ∧
        (∃ st, alloc_stats H fuel h = some (Res.ok st h)) := by
  obtain ⟨l, hwf, _, hacc, hlt⟩ := hr.inv
  have htot := isChain_total hwf.chain
  have ht : walk_total_size h l ≤ h.info.heap_size := by omega
  refine ⟨l, hwf.walk, isChain_sorted hwf.head_pos hwf.chain, ?_⟩
  intro fuel hfuel
  obtain ⟨h1, h2⟩ := alloc_stats_walk fuel hwf.walk hfuel ht hlt
  exact ⟨stats_visits_walk fuel hwf.walk hfuel, ⟨_, h1⟩, ⟨_, h2⟩⟩

/-- Witness of C20 on `heap_used`. -/
theorem stats_walk_terminates_witness :
    Reachable 8 48 heap_used ∧
    ∃ l, isWalk 8 heap_used (begin_chunk heap_used) l (end_chunk heap_used) ∧
      l.Pairwise (fun x y => x < y) ∧
      ∀ fuel, l.length < fuel →
        stats_visits 8 heap_used fuel (begin_chunk heap_used)
          = some (l, end_chunk heap_used) ∧
        (∃ r, stats_loop 8 heap_used fuel (begin_chunk heap_used) heap_used.info.heap_size 0 0
          = some (Res.ok r heap_used)) ∧
        (∃ st, alloc_stats 8 fuel heap_used = some (Res.ok st heap_used)) :=
  ⟨heap_used_reachable, stats_walk_terminates 8 48 heap_used heap_used_reachable⟩

/-! ## A single free block -/

theorem walk_free_size_append (h : Heap) (l1 l2 : List Nat) :
    walk_free_size h (l1 ++ l2) = walk_free_size h l1 + walk_free_size h l2 := by
  induction l1 with
  | nil => simp [walk_free_size]
  | cons c l ih =>
    show (if is_free_chunk c h then (h.mem c).curr_size else 0) + walk_free_size h (l ++ l2)
      = (if is_free_chunk c h then (h.mem c).curr_size else 0) + walk_free_size h l
        + walk_free_size h l2
    rw [ih]; omega

theorem walk_largest_append (h : Heap) (l1 l2 : List Nat) :
    walk_largest h (l1 ++ l2) = max (walk_largest h l1) (walk_largest h l2) := by
  induction l1 with
  | nil => simp [walk_largest]
  | cons c l ih =>
    show (if is_free_chunk c h then max (h.mem c).curr_size (walk_largest h (l ++ l2))
        else walk_largest h (l ++ l2))
      = max (if is_free_chunk c h then max (h.mem c).curr_size (walk_largest h l)
        else walk_largest h l) (walk_largest h l2)
    rw [ih]
    split_ifs <;> omega

theorem walk_free_zero (h : Heap) (l : List Nat)
    (hz : ∀ x ∈ l, is_free_chunk x h = true → (h.mem x).curr_size = 0) :
    walk_free_size h l = 0 ∧ walk_largest h l = 0 := by
  induction l with
  | nil => simp [walk_free_size, walk_largest]
  | cons c l ih =>
    obtain ⟨i1, i2⟩ := ih (fun x hx => hz x (List.mem_cons_of_mem _ hx))
    have hc := hz c (List.mem_cons_self _ _)
    simp only [walk_free_size, walk_largest, i1, i2]
    by_cases hf : is_free_chunk c h = true
    · simp [hf, hc hf]
    · simp [hf]

/-- In a well-formed heap where `c` is FREE and every other FREE chunk has size
0, the free total and the largest free size are both `c.curr_size`. -/
theorem WellFormed.single_free {H c : Nat} {h : Heap} {l : List Nat}
    (hwf : WellFormed H h l) (hc : c ∈ l) (hf : is_free_chunk c h = true)
    (hone : ∀ x ∈ l, x ≠ c → is_free_chunk x h = true → (h.mem x).curr_size = 0) :
    walk_free_size h l = (h.mem c).curr_size ∧ walk_largest h l = (h.mem c).curr_size := by
  have hH := hwf.head_pos
  obtain ⟨l1, l2, rfl⟩ := List.append_of_mem hc
  obtain ⟨m, hc1, hc2⟩ := isChain_append.mp hwf.chain
  obtain ⟨rfl, _, _, _, hc3⟩ := hc2
  have z1 := walk_free_zero h l1 (fun x hx hfx =>
    hone x (by simp [hx]) (by have := (isChain_mem hc1 hx).2; omega) hfx)
  have z2 := walk_free_zero h l2 (fun x hx hfx =>
    hone x (by simp [hx]) (by have := (isChain_mem hc3 hx).1; omega) hfx)
  rw [walk_free_size_append, walk_largest_append]
  simp only [walk_free_size, walk_largest, hf, if_true, z1.1, z1.2, z2.1, z2.2]
  omega

/-- The statistics of a well-formed heap whose only FREE chunk of non-zero size
is `c`. -/
theorem WellFormed.single_free_stats {H c : Nat} {h : Heap} {l : List Nat}
    (hwf : WellFormed H h l) (hc : c ∈ l) (hf : is_free_chunk c h = true)
    (hone : ∀ x ∈ l, x ≠ c → is_free_chunk x h = true → (h.mem x).curr_size = 0)
    (fuel : Nat) (hfuel : l.length < fuel) :
    stats_loop H h fuel (begin_chunk h) h.info.heap_size 0 0 =
      some (Res.ok (walk_meta_size h h.info.heap_size l, (h.mem c).curr_size,
        (h.mem c).curr_size) h) ∧
    alloc_stats H fuel h =
      some (Res.ok (stats_of h.info.heap_size (walk_meta_size h h.info.heap_size l)
        (h.mem c).curr_size (h.mem c).curr_size) h) := by
  obtain ⟨e1, e2⟩ := hwf.single_free hc hf hone
  have := hwf.stats_result fuel hfuel
  rw [e1, e2] at this
  exact this

theorem stats_of_self (heap_size m n : Nat) (hn : n ≠ 0) :
    (stats_of heap_size m n n).rel_ext_frag = (n : ℚ) / (n : ℚ) ∧
    (stats_of heap_size m n n).rel_ext_frag = 1 := by
  have hq : (n : ℚ) ≠ 0 := by exact_mod_cast hn
  simp [stats_of, hn, div_self hq]

/-- The heap with `arena_size = 1000`, one used chunk of 200 bytes and one free
chunk, for any header and descriptor size. -/
theorem arena_1000_heap {H D heap : Nat} {h0 : Heap} (hH : 0 < H) (h3 : 200 + 3 * H ≤ 1000) :
    ∃ ha hb hc r, init_heap H D (D + 1000) heap h0 = Res.ok () ha ∧
      ha.info.arena_size = 1000 ∧
      split_chunk H (begin_chunk ha) 200 ha = Res.ok r hb ∧
      use_chunk H (begin_chunk hb) hb = Res.ok () hc ∧
      WellFormed H hc [begin_chunk hc, r] ∧
      is_used_chunk (begin_chunk hc) hc = true ∧
      (hc.mem (begin_chunk hc)).curr_size = 200 ∧
      is_free_chunk r hc = true ∧
      (hc.mem r).curr_size = 1000 - 200 - 3 * H := by
  have hmk := size_marker_eq
  have hfs : init_free_size H D (D + 1000) = 1000 - 2 * H := by
    rw [init_free_size_of_le (by omega)]
    have : D + 1000 - D - 2 * H = 1000 - 2 * H := by omega
    rw [this]
    exact Nat.mod_eq_of_lt (by simp only [field_mod]; omega)
  obtain ⟨ha, hia⟩ := @init_heap_ok H D (D + 1000) heap h0 (by omega)
  obtain ⟨hwfa, hfa, hcsa⟩ := init_heap_wf hH hia
  obtain ⟨_, hinfoa, _⟩ := init_heap_mem hH hia
  rw [hfs] at hcsa
  have harena : ha.info.arena_size = 1000 := by
    rw [hinfoa]
    simp only
    rw [sub_size_t_eq (by omega) (by simp only [size_t_mod]; omega)]
    omega
  -- the split
  have hea : is_end_chunk (begin_chunk ha) ha = false :=
    is_end_chunk_false_of_lt (by omega)
  have hsa : 200 + H ≤ (ha.mem (begin_chunk ha)).curr_size := by omega
  obtain ⟨hb, hrb⟩ := @split_chunk_ok H (begin_chunk ha) 200 ha hfa hea
  obtain ⟨_, _, hinfob, hmb⟩ := split_chunk_mem hH hsa (by omega) hrb
  obtain ⟨l1, l2, hl, hwfb⟩ := hwfa.split (List.mem_singleton.mpr rfl) hsa hrb
  have hl12 : l1 = [] ∧ l2 = [] := by
    cases l1 with
    | nil => simp at hl; exact ⟨rfl, hl⟩
    | cons a l1 => cases l1 <;> simp at hl
  obtain ⟨rfl, rfl⟩ := hl12
  simp only [List.nil_append, chunk_data] at hwfb hrb
  have hbb : begin_chunk hb = begin_chunk ha := by simp [begin_chunk, hinfob]
  have hb1 : hb.mem (begin_chunk ha) = { ha.mem (begin_chunk ha) with curr_size := 200 } := by
    rw [hmb, if_neg (by omega), if_neg (by omega), if_pos rfl]
  have hb2 : hb.mem (begin_chunk ha + H + 200) =
      ⟨200, FREE_CHUNK, (ha.mem (begin_chunk ha)).curr_size - 200 - H, FREE_CHUNK⟩ := by
    rw [hmb, if_pos rfl]
  -- the use
  have hfb : is_free_chunk (begin_chunk hb) hb = true := by
    rw [hbb]; simp only [is_free_chunk, hb1]; exact hfa
  have heb : is_end_chunk (begin_chunk hb) hb = false := by
    rw [hbb]; simp only [is_end_chunk, hb1, beq_eq_false_iff_ne]; omega
  obtain ⟨hc, hrc⟩ := @use_chunk_ok H (begin_chunk hb) hb hfb heb
  obtain ⟨_, _, hinfoc, hmc⟩ := use_chunk_mem hH hrc
  have hwfc := hwfb.toggle (by rw [hbb]; simp) hinfoc hmc
  rw [hbb] at hmc
  have hnx : begin_chunk ha + H + (hb.mem (begin_chunk ha)).curr_size
      = begin_chunk ha + H + 200 := by rw [hb1]
  rw [hnx] at hmc
  have hbc : begin_chunk hc = begin_chunk ha := by simp [begin_chunk, hinfoc, hinfob]
  have hc1 : hc.mem (begin_chunk ha) = { hb.mem (begin_chunk ha) with curr_state := USED_CHUNK } := by
    rw [hmc, if_neg (by omega), if_pos rfl]
  have hc2 : hc.mem (begin_chunk ha + H + 200) =
      { hb.mem (begin_chunk ha + H + 200) with prev_state := USED_CHUNK } := by
    rw [hmc, if_pos rfl]
  refine ⟨ha, hb, hc, begin_chunk ha + H + 200, hia, harena, hrb, hrc, ?_, ?_, ?_, ?_, ?_⟩
  · rw [hbc]; exact hwfc
  · rw [hbc]; simp [is_used_chunk, hc1]
  · rw [hbc, hc1, hb1]
  · simp [is_free_chunk, hc2, hb2]
  · rw [hc2, hb2]; simp only; omega

/-- C15, as stated, fails in its instance: `heap_arena` has `arena_size` 1000
and one used chunk of 200 bytes, and its one free chunk has
`776 = 1000 - 200 - 3 * 8` bytes, a header less than the claimed
`1000 - 200 - 2 * 8`; `free_size` and `largest` are 776. -/
theorem arena_1000_free_chunk :
    heap_arena.info.arena_size = 1000 ∧
    isWalk 8 heap_arena (begin_chunk heap_arena) [48, 256] (end_chunk heap_arena) ∧
    is_used_chunk 48 heap_arena = true ∧ (heap_arena.mem 48).curr_size = 200 ∧
    is_free_chunk 256 heap_arena = true ∧ (heap_arena.mem 256).curr_size = 776 ∧
    (heap_arena.mem 256).curr_size ≠ 1000 - 200 - 2 * 8 ∧
    walk_free_size heap_arena [48, 256] = 776 ∧ walk_largest heap_arena [48, 256] = 776 := by
  decide

/-- C15, amended: in a well-formed heap whose only FREE chunk of non-zero size
is `c`, the loop of `alloc_stats` ends with `free_size = largest = c.curr_size`
and `rel_ext_frag = largest / free_size = 1`.  As an instance, the heap with
`arena_size = 1000` and one used chunk of 200 bytes has one free chunk of
`1000 - 200 - 3 * head_size ()` bytes (the arena also holds the header of the
end sentinel, so the two chunks tile `1000 - head_size ()` bytes, of which two
headers and 200 bytes are taken); `free_size` and `largest` both equal that
number and `rel_ext_frag = 1`. -/
theorem single_free_block_stats (H D heap : Nat) (h0 h : Heap) (l : List Nat) (c : Nat)
    (hwf : WellFormed H h l) (hc : c ∈ l) (hf : is_free_chunk c h = true)
    (hnz : (h.mem c).curr_size ≠ 0)
    (hone : ∀ x ∈ l, x ≠ c → is_free_chunk x h = true → (h.mem x).curr_size = 0) :
    (∃ st, (∀ fuel, l.length < fuel →
          (∃ m, stats_loop H h fuel (begin_chunk h) h.info.heap_size 0 0 =
            some (Res.ok (m, (h.mem c).curr_size, (h.mem c).curr_size) h)) ∧
          alloc_stats H fuel h = some (Res.ok st h)) ∧
        st.rel_ext_frag = ((h.mem c).curr_size : ℚ) / ((h.mem c).curr_size : ℚ) ∧
        st.rel_ext_frag = 1) ∧
    (200 + 3 * H < 1000 →
      ∃ h1 h2 h3 r st, init_heap H D (D + 1000) heap h0 = Res.ok () h1 ∧
        h1.info.arena_size = 1000 ∧
        split_chunk H (begin_chunk h1) 200 h1 = Res.ok r h2 ∧
        use_chunk H (begin_chunk h2) h2 = Res.ok () h3 ∧
        isWalk H h3 (begin_chunk h3) [begin_chunk h3, r] (end_chunk h3) ∧
        is_used_chunk (begin_chunk h3) h3 = true ∧
        (h3.mem (begin_chunk h3)).curr_size = 200 ∧
        is_free_chunk r h3 = true ∧
        (h3.mem r).curr_size = 1000 - 200 - 3 * H ∧
        end_chunk h3 - begin_chunk h3 = 1000 - H ∧
        (h3.mem r).curr_size = (end_chunk h3 - begin_chunk h3) - 200 - 2 * H ∧
        (∀ fuel, 2 < fuel →
          (∃ m, stats_loop H h3 fuel (begin_chunk h3) h3.info.heap_size 0 0 =
            some (Res.ok (m, 1000 - 200 - 3 * H, 1000 - 200 - 3 * H) h3)) ∧
          alloc_stats H fuel h3 = some (Res.ok st h3)) ∧
        st.rel_ext_frag = 1) := by
  constructor
  · refine ⟨stats_of h.info.heap_size (walk_meta_size h h.info.heap_size l)
      (h.mem c).curr_size (h.mem c).curr_size, fun fuel hfuel => ?_, stats_of_self _ _ _ hnz⟩
    obtain ⟨a1, a2⟩ := hwf.single_free_stats hc hf hone fuel hfuel
    exact ⟨⟨_, a1⟩, a2⟩
  · intro h3
    obtain ⟨ha, hb, hc, r, b1, b2, b3, b4, b5, b6, b7, b8, b9⟩ :=
      @arena_1000_heap H D heap h0 hwf.head_pos (by omega)
    have hone1 : ∀ x ∈ [begin_chunk hc, r], x ≠ r → is_free_chunk x hc = true →
        (hc.mem x).curr_size = 0 := by
      intro x hx hne hfx
      simp only [List.mem_cons, List.mem_singleton, List.not_mem_nil, or_false] at hx
      rcases hx with rfl | rfl
      · simp only [is_used_chunk, is_free_chunk] at b6 hfx
        rw [beq_iff_eq] at b6 hfx
        rw [b6] at hfx; cases hfx
      · exact absurd rfl hne
    have hst := fun fuel hfuel =>
      b5.single_free_stats (by simp) b8 hone1 fuel hfuel
    rw [b9] at hst
    have htot := isChain_total b5.chain
    simp only [walk_total_size, List.length_cons, List.length_nil, b7, b9] at htot
    refine ⟨ha, hb, hc, r, stats_of hc.info.heap_size
      (walk_meta_size hc hc.info.heap_size [begin_chunk hc, r]) (1000 - 200 - 3 * H)
      (1000 - 200 - 3 * H), b1, b2, b3, b4, b5.walk, b6, b7, b8, b9, by omega, by omega, ?_,
      (stats_of_self _ _ _ (by omega)).2⟩
    intro fuel hfuel
    obtain ⟨a1, a2⟩ := hst fuel (by simpa using hfuel)
    exact ⟨⟨_, a1⟩, a2⟩

/-- Witness of the amended C15 on `heap_used`, whose only FREE chunk is at 256. -/
theorem single_free_block_stats_witness :
    (WellFormed 8 heap_used [48, 256] ∧ 256 ∈ [48, 256] ∧
      is_free_chunk 256 heap_used = true ∧ (heap_used.mem 256).curr_size ≠ 0 ∧
      ∀ x ∈ [48, 256], x ≠ 256 → is_free_chunk x heap_used = true →
        (heap_used.mem x).curr_size = 0) ∧
    ∃ st, (∀ fuel, [48, 256].length < fuel →
        alloc_stats 8 fuel heap_used = some (Res.ok st heap_used)) ∧
      st.rel_ext_frag = 1 := by
  have hwf : WellFormed 8 heap_used [48, 256] := heap_used_reachable.wf_of_walk (by decide)
  have hone : ∀ x ∈ [48, 256], x ≠ 256 → is_free_chunk x heap_used = true →
      (heap_used.mem x).curr_size = 0 := by decide
  refine ⟨⟨hwf, by decide, by decide, by decide, hone⟩, ?_⟩
  obtain ⟨⟨st, a1, _, a2⟩, _⟩ :=
    single_free_block_stats 8 48 0 raw_heap heap_used [48, 256] 256 hwf (by decide)
      (by decide) (by decide) hone
  exact ⟨st, fun fuel hf => (a1 fuel hf).2, a2⟩

/-! ## Calls on dead headers, and the evaluation order in `use_chunk` -/

/-- C1, as stated, fails: from `init_heap` on 1000 bytes (`head_size () = 8`,
48-byte descriptor), `split_chunk (begin, 200)` within its bound,
`coalesce_chunk` of the remainder at 256 and then `use_chunk` on the dead
header at 256 all pass their assertions; the last call writes
`prev_state = USED` into the end sentinel at 992 while the only chunk of the
walk, at 48, is FREE, so adjacency fails. -/
theorem adjacency_broken_by_dead_header :
    (0 < 8 ∧ 48 + 2 * 8 ≤ 1000 ∧ 1000 - 48 - 2 * 8 < size_marker) ∧
    init_heap 8 48 1000 0 raw_heap = Res.ok () heap_1000 ∧
    200 + 8 ≤ (heap_1000.mem 48).curr_size ∧
    split_chunk 8 48 200 heap_1000 = Res.ok 256 heap_split ∧
    coalesce_chunk 8 256 heap_split = Res.ok 48 heap_merged ∧
    use_chunk 8 256 heap_merged = Res.ok () heap_dead_used ∧
    use_chunk_call_first 8 256 heap_merged = Res.ok () heap_dead_used ∧
    isWalk 8 heap_dead_used (begin_chunk heap_dead_used) [48] (end_chunk heap_dead_used) ∧
    (heap_dead_used.mem 48).curr_state = FREE_CHUNK ∧
    (heap_dead_used.mem 992).prev_state = USED_CHUNK ∧
    ¬ adjacent_at 8 heap_dead_used 48 ∧
    ¬ ∃ l, isWalk 8 heap_dead_used (begin_chunk heap_dead_used) l (end_chunk heap_dead_used) ∧
      ∀ A ∈ l, adjacent_at 8 heap_dead_used A := by
  have hna : ¬ adjacent_at 8 heap_dead_used 48 := by
    rw [adjacent_at_iff]; decide
  have hu : use_chunk 8 256 heap_merged = Res.ok () heap_dead_used := rfl
  refine ⟨by decide, rfl, by decide, rfl, rfl, hu, use_chunk_returns_iff.mp hu, by decide,
    by decide, by decide, hna, ?_⟩
  rintro ⟨l, hw, hadj⟩
  cases l with
  | nil => exact absurd hw.1 (by decide)
  | cons a l =>
    have ha : begin_chunk heap_dead_used = a := hw.1
    have : a = 48 := by rw [← ha]; decide
    subst this
    exact hna (hadj 48 (List.mem_cons_self _ _))

end Malloc
